import Mathlib

/-!
Shallow embedding of `src/rust/src/lib.rs` (hytopiagg/world-editor, the
Minecraft-region-to-HYTOPIA converter core) and proofs about it.

Modelling conventions:
* `i32`/`isize` coordinates are modelled as `Int` (no claim under scrutiny
  depends on 32-bit coordinate wraparound); the one machine-width truncation
  that matters — `self.palette.len() as u16` — is modelled explicitly as
  `% 65536` (`2 ^ 16`).
* `HashMap`s are modelled as association lists whose `insert` conses a new
  binding in front and whose lookup takes the most recent binding, which is
  exactly `HashMap::insert` / `HashMap::get` overwrite semantics.
* The external region/chunk codec (`fastanvil`) is out of scope per the spec;
  a parsed region is a table of 32×32 chunk-slot outcomes and a decoded chunk
  is its `block(x, y, z)`-name query.  The external glob matcher
  (`glob_match::glob_match`) is a parameter `gm : String → String → Bool`.
* Rust panics (`unwrap` on `Err`/`None`) are modelled as an explicit
  `panicked` outcome, distinct from the `Result::Err`/`JsError` outcome.
* The JS output object written through `js_sys::Reflect::set` is modelled as
  the list of written entries, with the key kept structurally as the integer
  triple that the source formats as `"{dx},{dy},{dz}"`; `Reflect::set`
  failures are only logged by the source and never alter control flow, so the
  model's writes always succeed.
-/

namespace McWorldSpec

/-- Chunk height in cells, `const HEIGHT: u16 = 384;` in `lib.rs`. -/
def HEIGHT : Nat := 384

/-- Signed 2D chunk/region coordinate, mirroring `Vec2 { x: i32, z: i32 }`. -/
structure Vec2 where
  x : Int
  z : Int
deriving DecidableEq, Repr

/-- Signed 3D block coordinate, mirroring `Vec3 { x: i32, y: i32, z: i32 }`. -/
structure Vec3 where
  x : Int
  y : Int
  z : Int
deriving DecidableEq, Repr

/-- Lookup in the association-list model of `HashMap<Vec2, Vec<u16>>`. -/
def alookup (k : Vec2) : List (Vec2 × List Nat) → Option (List Nat)
  | [] => none
  | (k2, v) :: rest => if k = k2 then some v else alookup k rest

/-- Lookup in the association-list model of `HashMap<String, u16>`. -/
def slookup (k : String) : List (String × Nat) → Option Nat
  | [] => none
  | (k2, v) :: rest => if k = k2 then some v else slookup k rest

/-- World state, mirroring `McWorld { palette_index, palette, chunks }`.
Palette ids are `u16` in the source; they are modelled as `Nat` values reduced
modulo `2 ^ 16 = 65536` at the single point where the source truncates
(`self.palette.len() as u16` in `read_region`). -/
structure McWorld where
  palette_index : List (String × Nat)
  palette : List String
  chunks : List (Vec2 × List Nat)
deriving DecidableEq, Repr

/-- Fresh world, `McWorld::new()`. -/
def McWorld.new : McWorld := { palette_index := [], palette := [], chunks := [] }

/-- Palette lookup-or-create, lines 144–153 of `lib.rs`: a hit returns the
stored id; a miss assigns `self.palette.len() as u16` (hence `% 65536`),
pushes the name onto `palette` and records the binding in `palette_index`. -/
def getOrCreate (w : McWorld) (name : String) : McWorld × Nat :=
  match slookup name w.palette_index with
  | some i => (w, i)
  | none =>
    let idx := w.palette.length % 65536
    ({ w with palette := w.palette ++ [name],
              palette_index := (name, idx) :: w.palette_index }, idx)

/-- Decoded chunk from the external codec (`fastanvil::complete::Chunk`),
abstracted to its block query `chunk.block(x, y, z)` returning the block's
name; `none` is a cell with no resolvable block. -/
structure DecodedChunk where
  block : Nat → Nat → Nat → Option String

/-- Outcome of asking the external codec for one chunk slot:
`region.read_chunk(x, z)` can fail outright (`readErr`; the source `unwrap`s
this, i.e. panics), report the slot unallocated (`absentChunk`, the `None`
case), or return payload bytes whose structural decode
(`complete::Chunk::from_bytes`) either fails (`badPayload`) or yields a
decoded chunk (`okChunk`). -/
inductive SlotResult where
  | readErr (msg : String)
  | absentChunk
  | badPayload (msg : String)
  | okChunk (c : DecodedChunk)

/-- Outcome of `fastanvil::Region::from_stream` on the raw region bytes:
container parse failure, or a table of 32×32 chunk slots. -/
inductive RegionParse where
  | parseErr (msg : String)
  | parsed (slots : Nat → Nat → SlotResult)

/-- Outcome of `read_region`.  The world is carried in every case because the
method takes `&mut self`: mutations made before a failure are committed and
not rolled back. -/
inductive RRResult where
  | ok (w : McWorld)
  | err (msg : String) (w : McWorld)
  | panicked (w : McWorld)

/-- World state carried by a `read_region` outcome. -/
def resWorld : RRResult → McWorld
  | .ok w => w
  | .err _ w => w
  | .panicked w => w

/-- Intermediate state while iterating the 32×32 chunk slots. -/
inductive RRState where
  | running (w : McWorld)
  | fatal (msg : String) (w : McWorld)
  | panicked (w : McWorld)

/-- World state carried by an intermediate `read_region` state. -/
def stWorld : RRState → McWorld
  | .running w => w
  | .fatal _ w => w
  | .panicked w => w

/-- `Option::is_some_and` on an optional chunk bound. -/
def isSomeAnd (o : Option Vec2) (p : Vec2 → Bool) : Bool :=
  match o with
  | some v => p v
  | none => false

/-- One iteration of the per-chunk ingestion loop, lines 132–156 of `lib.rs`:
decompose the cell index `i` into local `(chunk_x, chunk_y, chunk_z)`, query
the decoded chunk, skip unresolvable cells, and store the
looked-up-or-created palette id at `i`. -/
def ingestStep (chunk : DecodedChunk) (acc : McWorld × List Nat) (i : Nat) :
    McWorld × List Nat :=
  let chunk_z := i / (16 * HEIGHT)
  let remainder := i % (16 * HEIGHT)
  let chunk_y := remainder / 16
  let chunk_x := remainder % 16
  match chunk.block chunk_x chunk_y chunk_z with
  | none => acc
  | some name =>
    let p := getOrCreate acc.1 name
    (p.1, acc.2.set i p.2)

/-- Per-chunk ingestion loop, lines 128–156 of `lib.rs`: starting from
`vec![0u16; 16 * HEIGHT * 16]`, run `ingestStep` over all cell indices in
order. -/
def ingestCells (w : McWorld) (chunk : DecodedChunk) : McWorld × List Nat :=
  (List.range (16 * HEIGHT * 16)).foldl (ingestStep chunk)
    (w, List.replicate (16 * HEIGHT * 16) 0)

/-- One iteration of the 32×32 slot loop of `read_region`, lines 85–168:
bound checks (each axis independently, inclusive, via `is_some_and`), then
the slot outcome: `readErr` is `unwrap`ped (panic), an absent chunk is
skipped with `continue`, a structural decode failure propagates via `?`
(terminal error), and a decoded chunk is ingested and inserted into
`self.chunks` under its global chunk coordinate. -/
def readRegionStep (region_pos : Vec2) (minc maxc : Option Vec2)
    (slots : Nat → Nat → SlotResult) (st : RRState) (xz : Nat × Nat) : RRState :=
  match st with
  | .fatal m w => .fatal m w
  | .panicked w => .panicked w
  | .running w =>
    let x := xz.1
    let z := xz.2
    let global_chunk_x : Int := region_pos.x * 32 + x
    let global_chunk_z : Int := region_pos.z * 32 + z
    if (isSomeAnd minc fun pos => decide (global_chunk_x < pos.x)) ||
        (isSomeAnd maxc fun pos => decide (global_chunk_x > pos.x)) then
      .running w
    else if (isSomeAnd minc fun pos => decide (global_chunk_z < pos.z)) ||
        (isSomeAnd maxc fun pos => decide (global_chunk_z > pos.z)) then
      .running w
    else
      match slots x z with
      | .readErr _ => .panicked w
      | .absentChunk => .running w
      | .badPayload msg => .fatal msg w
      | .okChunk chunk =>
        let p := ingestCells w chunk
        .running { p.1 with
          chunks := (⟨region_pos.x * 32 + x, region_pos.z * 32 + z⟩, p.2) :: p.1.chunks }

/-- The slot traversal order of `read_region`: `for x in 0..32 { for z in 0..32 }`. -/
def slotPairs : List (Nat × Nat) :=
  (List.range 32).flatMap fun x => (List.range 32).map fun z => (x, z)

/-- Final state of the slot traversal mapped to the method's result type. -/
def finishRR : RRState → RRResult
  | .running w => .ok w
  | .fatal m w => .err m w
  | .panicked w => .panicked w

/-- `McWorld::read_region`, lines 69–172 of `lib.rs`, with the external codec
results supplied as `reg`. -/
def read_region (w : McWorld) (region_pos : Vec2) (minc maxc : Option Vec2)
    (reg : RegionParse) : RRResult :=
  match reg with
  | .parseErr msg => .err msg w
  | .parsed slots =>
    finishRR (slotPairs.foldl (readRegionStep region_pos minc maxc slots) (.running w))

/-- Output entry of `convert`: the `"{dx},{dy},{dz}"` key kept structurally as
an integer triple, paired with the matched rule's target id. -/
abbrev Entry := (Int × Int × Int) × Nat

/-- State of the output object while `convert` iterates cells: the entries
written so far, or a pending panic from an `unwrap`. -/
abbrev EState := Except Unit (List Entry)

/-- The `is_inside_region` closure of bounded-mode `convert`, lines 189–196. -/
def isInsideRegion (minP maxP : Vec3) (x y z : Int) : Bool :=
  decide (x ≥ minP.x) && decide (x ≤ maxP.x) && decide (y ≥ minP.y) &&
    decide (y ≤ maxP.y) && decide (z ≥ minP.z) && decide (z ≤ maxP.z)

/-- The rule-scanning loop of `convert` (lines 227–244 / 298–315): walk the
rule list in iteration order and return the first target id whose glob
pattern matches the block name. -/
def firstMatch (gm : String → String → Bool) (rules : List (String × Nat))
    (block : String) : Option Nat :=
  match rules with
  | [] => none
  | (mc_name, hytopia_id) :: rest =>
    if gm mc_name block then some hytopia_id else firstMatch gm rest block

/-- Global x coordinate of cell index `i` of the chunk at chunk-x `cx`:
`chunk_x * 16 + section_x` with `section_x = (i % (16 * HEIGHT)) % 16`. -/
def cellGlobalX (cx : Int) (i : Nat) : Int := cx * 16 + ((i % (16 * HEIGHT)) % 16 : Nat)

/-- Global y coordinate of cell index `i`: `(i % (16 * HEIGHT)) / 16`. -/
def cellGlobalY (i : Nat) : Int := ((i % (16 * HEIGHT)) / 16 : Nat)

/-- Global z coordinate of cell index `i` of the chunk at chunk-z `cz`:
`chunk_z * 16 + section_z` with `section_z = i / (16 * HEIGHT)`. -/
def cellGlobalZ (cz : Int) (i : Nat) : Int := cz * 16 + (i / (16 * HEIGHT) : Nat)

/-- Per-cell body of bounded-mode `convert`, lines 208–245: decompose the cell
index, region-filter, resolve the palette id (`self.palette.get(..).unwrap()`,
whose failure is the panic `.error ()`), skip air, and emit the first-matching
rule's id at the offset key. -/
def convertCellBounded (palette : List String) (gm : String → String → Bool)
    (rules : List (String × Nat)) (minP maxP : Vec3) (sub_x sub_y sub_z : Int)
    (chunk_x chunk_z : Int) (i : Nat) (palette_id : Nat) :
    Except Unit (Option Entry) :=
  let global_x := cellGlobalX chunk_x i
  let global_y := cellGlobalY i
  let global_z := cellGlobalZ chunk_z i
  if isInsideRegion minP maxP global_x global_y global_z then
    match palette.get? palette_id with
    | none => .error ()
    | some block =>
      if block = "minecraft:air" then .ok none
      else .ok ((firstMatch gm rules block).map fun id =>
        ((global_x - sub_x, global_y - sub_y, global_z - sub_z), id))
  else .ok none

/-- Per-cell body of unbounded-mode `convert`, lines 283–316: same as the
bounded body but with no region filter and no vertical offset subtraction
(`dy = global_y`). -/
def convertCellUnbounded (palette : List String) (gm : String → String → Bool)
    (rules : List (String × Nat)) (sub_x sub_z : Int)
    (chunk_x chunk_z : Int) (i : Nat) (palette_id : Nat) :
    Except Unit (Option Entry) :=
  let global_x := cellGlobalX chunk_x i
  let global_y := cellGlobalY i
  let global_z := cellGlobalZ chunk_z i
  match palette.get? palette_id with
  | none => .error ()
  | some block =>
    if block = "minecraft:air" then .ok none
    else .ok ((firstMatch gm rules block).map fun id =>
      ((global_x - sub_x, global_y, global_z - sub_z), id))

/-- One step of the `chunk.iter().enumerate()` loop: feed the enumerated cell
`x = (i, palette_id)` to the per-cell body, propagating a previous panic. -/
def chunkCellStep (cell : Nat → Nat → Except Unit (Option Entry))
    (st : EState) (x : Nat × Nat) : EState :=
  match st with
  | .error e => .error e
  | .ok out =>
    match cell x.1 x.2 with
    | .error e => .error e
    | .ok none => .ok out
    | .ok (some entry) => .ok (out ++ [entry])

/-- `chunk.iter().enumerate()` loop over one stored chunk array: thread the
output state through each cell, aborting on a cell panic. -/
def convertChunk (cell : Nat → Nat → Except Unit (Option Entry)) (arr : List Nat)
    (st : EState) : EState :=
  arr.enum.foldl (chunkCellStep cell) st

/-- Inclusive integer range `lo..=hi` as a list (empty when `hi < lo`). -/
def intRange (lo hi : Int) : List Int :=
  (List.range (hi + 1 - lo).toNat).map fun k => lo + (k : Nat)

/-- The two nested chunk-coordinate loops shared by both `convert` modes:
iterate `chunk_x` over `xlo..=xhi` and `chunk_z` over `zlo..=zhi`, skip
coordinates with no stored chunk, and run the per-cell body over stored ones,
starting from the empty output object. -/
def chunkRangeFold (w : McWorld)
    (cell : Int → Int → Nat → Nat → Except Unit (Option Entry))
    (xlo xhi zlo zhi : Int) : EState :=
  (intRange xlo xhi).foldl
    (fun st chunk_x =>
      (intRange zlo zhi).foldl
        (fun st chunk_z =>
          match alookup ⟨chunk_x, chunk_z⟩ w.chunks with
          | none => st
          | some arr => convertChunk (cell chunk_x chunk_z) arr st)
        st)
    (.ok [])

/-- Minimum of a list of `Int`s; `(chunks.keys().min_by_key(|v| v.x)).x` is
the minimum of the keys' x components, whichever tied key `min_by_key`
returns. -/
def minInt? : List Int → Option Int
  | [] => none
  | a :: rest =>
    match minInt? rest with
    | none => some a
    | some b => some (min a b)

/-- Maximum of a list of `Int`s, the analogue of `minInt?` for `max_by_key`. -/
def maxInt? : List Int → Option Int
  | [] => none
  | a :: rest =>
    match maxInt? rest with
    | none => some a
    | some b => some (max a b)

/-- Outcome of `convert`: the produced mapping, a `JsError`, or a panic. -/
inductive ConvertResult where
  | ok (out : List Entry)
  | err (msg : String)
  | panicked
deriving DecidableEq, Repr

/-- `McWorld::convert`, lines 175–322 of `lib.rs`.  `rules` is the
string-to-u16 mapping in its iteration order; `gm` is the external glob
matcher.  An empty chunk store short-circuits to an empty mapping.  With both
bounds supplied the bounded mode runs: centered truncating offsets
(`Int.tdiv` is Rust's truncating `/`), chunk ranges `min_pos.x >> 4 ..=
max_pos.x >> 4` (arithmetic shift right by 4 = floor division by 16, hence
`Int.fdiv`).  Otherwise the unbounded mode derives the chunk rectangle from
the stored keys' independent per-axis extrema (the `ok_or` error branches are
kept although the store is non-empty there). -/
def convert (w : McWorld) (min_pos max_pos : Option Vec3)
    (rules : List (String × Nat)) (gm : String → String → Bool) : ConvertResult :=
  match w.chunks with
  | [] => .ok []
  | _ :: _ =>
    match min_pos, max_pos with
    | some minP, some maxP =>
      let sub_x := minP.x + Int.tdiv (maxP.x - minP.x) 2
      let sub_y := minP.y
      let sub_z := minP.z + Int.tdiv (maxP.z - minP.z) 2
      match chunkRangeFold w
          (fun cx cz i pid =>
            convertCellBounded w.palette gm rules minP maxP sub_x sub_y sub_z cx cz i pid)
          (Int.fdiv minP.x 16) (Int.fdiv maxP.x 16)
          (Int.fdiv minP.z 16) (Int.fdiv maxP.z 16) with
      | .error _ => .panicked
      | .ok out => .ok out
    | _, _ =>
      match minInt? (w.chunks.map fun e => e.1.x) with
      | none => .err "Couldn't find min_x, this is a bug!"
      | some min_x =>
        match minInt? (w.chunks.map fun e => e.1.z) with
        | none => .err "Couldn't find min_z, this is a bug!"
        | some min_z =>
          match maxInt? (w.chunks.map fun e => e.1.x) with
          | none => .err "Couldn't find max_x, this is a bug!"
          | some max_x =>
            match maxInt? (w.chunks.map fun e => e.1.z) with
            | none => .err "Couldn't find max_z, this is a bug!"
            | some max_z =>
              let sub_x := min_x + Int.tdiv (max_x - min_x) 2
              let sub_z := min_z + Int.tdiv (max_z - min_z) 2
              match chunkRangeFold w
                  (fun cx cz i pid =>
                    convertCellUnbounded w.palette gm rules sub_x sub_z cx cz i pid)
                  min_x max_x min_z max_z with
              | .error _ => .panicked
              | .ok out => .ok out

/-- The whole bounded-mode traversal of `convert`, with the centered
truncating offsets and the `>> 4` chunk ranges spelled out. -/
def convertBoundedFold (w : McWorld) (minP maxP : Vec3) (rules : List (String × Nat))
    (gm : String → String → Bool) : EState :=
  chunkRangeFold w
    (fun cx cz i pid =>
      convertCellBounded w.palette gm rules minP maxP
        (minP.x + Int.tdiv (maxP.x - minP.x) 2) minP.y
        (minP.z + Int.tdiv (maxP.z - minP.z) 2) cx cz i pid)
    (Int.fdiv minP.x 16) (Int.fdiv maxP.x 16) (Int.fdiv minP.z 16) (Int.fdiv maxP.z 16)

/-- The whole unbounded-mode traversal of `convert`, given the four derived
per-axis chunk extrema. -/
def convertUnboundedFold (w : McWorld) (rules : List (String × Nat))
    (gm : String → String → Bool) (mnx mxx mnz mxz : Int) : EState :=
  chunkRangeFold w
    (fun cx cz i pid =>
      convertCellUnbounded w.palette gm rules
        (mnx + Int.tdiv (mxx - mnx) 2) (mnz + Int.tdiv (mxz - mnz) 2) cx cz i pid)
    mnx mxx mnz mxz

/-- Contribution of a single enumerated cell to the output: the singleton or
empty list it appends, or the panic it raises. -/
def cellContrib (cell : Nat → Nat → Except Unit (Option Entry)) (x : Nat × Nat) :
    EState :=
  match cell x.1 x.2 with
  | .error _ => .error ()
  | .ok none => .ok []
  | .ok (some entry) => .ok [entry]

/-- Inner (`chunk_z`) loop step of `chunkRangeFold`. -/
def zStep (w : McWorld) (cell : Int → Int → Nat → Nat → Except Unit (Option Entry))
    (cx : Int) (st : EState) (cz : Int) : EState :=
  match alookup ⟨cx, cz⟩ w.chunks with
  | none => st
  | some arr => convertChunk (cell cx cz) arr st

/-- Contribution of one `(cx, cz)` chunk coordinate, starting from an empty
output. -/
def zContrib (w : McWorld) (cell : Int → Int → Nat → Nat → Except Unit (Option Entry))
    (cx cz : Int) : EState :=
  zStep w cell cx (.ok []) cz

/-- Outer (`chunk_x`) loop step of `chunkRangeFold`. -/
def xStep (w : McWorld) (cell : Int → Int → Nat → Nat → Except Unit (Option Entry))
    (zlo zhi : Int) (st : EState) (cx : Int) : EState :=
  (intRange zlo zhi).foldl (zStep w cell cx) st

/-- Contribution of one whole `chunk_x` column, starting from an empty output. -/
def xContrib (w : McWorld) (cell : Int → Int → Nat → Nat → Except Unit (Option Entry))
    (zlo zhi : Int) (cx : Int) : EState :=
  xStep w cell zlo zhi (.ok []) cx

/-- Structural invariant of the palette registry: names are pairwise distinct,
the `k`-th name is bound to id `k % 65536`, and every bound name is a palette
member.  It holds for `McWorld::new` and is preserved by every operation. -/
def PaletteOK (w : McWorld) : Prop :=
  w.palette.Nodup ∧
  (∀ k n, w.palette.get? k = some n → slookup n w.palette_index = some (k % 65536)) ∧
  (∀ n i, slookup n w.palette_index = some i → n ∈ w.palette)

/-- Worlds reachable through the public API: `McWorld::new` followed by any
sequence of `read_region` calls (committing the mutated world whatever the
outcome); `convert` takes `&self` and never mutates. -/
inductive Reachable : McWorld → Prop where
  | new : Reachable McWorld.new
  | step (w : McWorld) (rp : Vec2) (minc maxc : Option Vec2) (reg : RegionParse) :
      Reachable w → Reachable (resWorld (read_region w rp minc maxc reg))

/-- Palette registry after a sequence of `get_or_create` calls on a fresh
world, one per name in order. -/
def paletteRun (names : List String) : McWorld :=
  names.foldl (fun w n => (getOrCreate w n).1) McWorld.new

/-- The `n`-th of an unbounded family of pairwise-distinct block names. -/
def bname (n : Nat) : String := ⟨List.replicate n 'a'⟩

/-- Decoded chunk whose cell at local `(x, y, z)` resolves to the fresh name
`bname (z * (16 * HEIGHT) + y * 16 + x)`, so every one of its `16 * HEIGHT * 16`
cells introduces a distinct block name. -/
def bigChunk : DecodedChunk :=
  ⟨fun x y z => some (bname (z * (16 * HEIGHT) + y * 16 + x))⟩

/-- Decoded chunk with no resolvable cell at all. -/
def noneChunk : DecodedChunk := ⟨fun _ _ _ => none⟩

/-- Decoded chunk that is solid stone. -/
def stoneChunk : DecodedChunk := ⟨fun _ _ _ => some "minecraft:stone"⟩

/-- Region table holding the given decoded chunk in slot `(0, 0)` and
unallocated slots everywhere else. -/
def singleSlots (c : DecodedChunk) : Nat → Nat → SlotResult :=
  fun x z => if x = 0 ∧ z = 0 then .okChunk c else .absentChunk

/-- World obtained by ingesting `bigChunk` (which introduces
`16 * HEIGHT * 16 = 98304 > 65536` distinct names) into a fresh world. -/
def bigWorld : McWorld :=
  resWorld (read_region McWorld.new ⟨0, 0⟩ none none (.parsed (singleSlots bigChunk)))

/-- Exact-string-equality instantiation of the external glob matcher (a glob
pattern with no wildcards matches exactly itself). -/
def gmEq : String → String → Bool := fun p b => p == b

/-- Tiny concrete world for witnesses: one palette entry and one stored chunk
at chunk coordinate `(0, 0)` whose array holds the single palette id `0`. -/
def stoneWorld : McWorld :=
  { palette_index := [("minecraft:stone", 0)]
    palette := ["minecraft:stone"]
    chunks := [(⟨0, 0⟩, [0])] }

/-- One-rule ruleset mapping stone to target id `5`. -/
def stoneRules : List (String × Nat) := [("minecraft:stone", 5)]

/-- World with a stored chunk but an empty palette, as produced by ingesting a
chunk none of whose cells resolves to a block: every stored cell keeps the
default id `0`, which is not a valid index into the empty palette. -/
def emptyPaletteWorld : McWorld :=
  { palette_index := [], palette := [], chunks := [(⟨0, 0⟩, [0])] }

/-- Two slot-traversal states in lockstep: same control outcome, same palette,
and the first one's chunk store is the second one's with `cs` (the untouched
part of the initial store) appended. -/
def SameModChunks (cs : List (Vec2 × List Nat)) : RRState → RRState → Prop
  | .running w1, .running w0 => w1 = { w0 with chunks := w0.chunks ++ cs }
  | .fatal m1 w1, .fatal m0 w0 => m1 = m0 ∧ w1 = { w0 with chunks := w0.chunks ++ cs }
  | .panicked w1, .panicked w0 => w1 = { w0 with chunks := w0.chunks ++ cs }
  | _, _ => False

/-! ### Generic fold lemmas -/

/-- A predicate preserved by every step of a fold holds at the end. -/
theorem foldl_inv {σ β : Type _} (step : σ → β → σ) (P : σ → Prop) :
    ∀ (L : List β) (s : σ), (∀ t b, b ∈ L → P t → P (step t b)) → P s →
      P (L.foldl step s) := by
  intro L
  induction L with
  | nil => intro s _ hs; exact hs
  | cons b L ih =>
    intro s h hs
    exact ih (step s b) (fun t c hc ht => h t c (List.mem_cons_of_mem b hc) ht)
      (h s b (List.mem_cons_self b L) hs)

/-- Once an output-state fold has panicked it stays panicked. -/
theorem estate_foldl_absorb {β : Type _} (step : EState → β → EState)
    (He : ∀ b, step (.error ()) b = .error ()) :
    ∀ L : List β, L.foldl step (.error ()) = .error () := by
  intro L
  induction L with
  | nil => rfl
  | cons b L ih => simp only [List.foldl_cons, He b, ih]

/-- An output-state fold whose steps append per-element contributions factors
through the run started from the empty output. -/
theorem estate_foldl_shape {β : Type _} (step : EState → β → EState) (h : β → EState)
    (He : ∀ b, step (.error ()) b = .error ())
    (Hok : ∀ acc b, step (.ok acc) b =
      match h b with
      | .error _ => .error ()
      | .ok l => .ok (acc ++ l)) :
    ∀ (L : List β) (acc : List Entry),
      L.foldl step (.ok acc) =
        match L.foldl step (.ok []) with
        | .error _ => .error ()
        | .ok out => .ok (acc ++ out) := by
  intro L
  induction L with
  | nil => intro acc; simp
  | cons b L ih =>
    intro acc
    simp only [List.foldl_cons, Hok acc b, Hok ([] : List Entry) b]
    cases hb : h b with
    | error e =>
      cases e
      simp only [estate_foldl_absorb step He]
    | ok l =>
      simp only [List.nil_append]
      rw [ih (acc ++ l), ih l]
      cases hrest : L.foldl step (.ok []) with
      | error e => rfl
      | ok out => simp [List.append_assoc]

/-- Membership in the output of an append-shaped fold is membership in some
element's contribution. -/
theorem estate_foldl_mem {β : Type _} (step : EState → β → EState) (h : β → EState)
    (He : ∀ b, step (.error ()) b = .error ())
    (Hok : ∀ acc b, step (.ok acc) b =
      match h b with
      | .error _ => .error ()
      | .ok l => .ok (acc ++ l)) :
    ∀ (L : List β) (out : List Entry), L.foldl step (.ok []) = .ok out →
      ∀ e, e ∈ out ↔ ∃ b, b ∈ L ∧ ∃ lb, h b = .ok lb ∧ e ∈ lb := by
  intro L
  induction L with
  | nil =>
    intro out hout e
    simp only [List.foldl_nil] at hout
    cases hout
    simp
  | cons b L ih =>
    intro out hout e
    simp only [List.foldl_cons, Hok ([] : List Entry) b] at hout
    cases hb : h b with
    | error e2 =>
      cases e2
      rw [hb] at hout
      simp only [estate_foldl_absorb step He] at hout
      cases hout
    | ok l =>
      rw [hb] at hout
      simp only [List.nil_append] at hout
      rw [estate_foldl_shape step h He Hok L l] at hout
      cases hrest : L.foldl step (.ok []) with
      | error e2 =>
        rw [hrest] at hout
        cases hout
      | ok out2 =>
        rw [hrest] at hout
        cases hout
        constructor
        · intro hmem
          rcases List.mem_append.mp hmem with hl | hr
          · exact ⟨b, List.mem_cons_self b L, l, hb, hl⟩
          · rcases (ih out2 hrest e).mp hr with ⟨b2, hb2, lb, hlb, hiel⟩
            exact ⟨b2, List.mem_cons_of_mem b hb2, lb, hlb, hiel⟩
        · rintro ⟨b2, hb2, lb, hlb, hiel⟩
          rcases List.mem_cons.mp hb2 with rfl | hb2
          · rw [hb] at hlb
            cases hlb
            exact List.mem_append.mpr (Or.inl hiel)
          · exact List.mem_append.mpr (Or.inr ((ih out2 hrest e).mpr ⟨b2, hb2, lb, hlb, hiel⟩))

/-- If some element's contribution panics, the whole fold panics, whatever
state it starts from. -/
theorem estate_foldl_force {β : Type _} (step : EState → β → EState) (h : β → EState)
    (He : ∀ b, step (.error ()) b = .error ())
    (Hok : ∀ acc b, step (.ok acc) b =
      match h b with
      | .error _ => .error ()
      | .ok l => .ok (acc ++ l)) :
    ∀ (L : List β) (b : β), b ∈ L → h b = .error () → ∀ st,
      L.foldl step st = .error () := by
  intro L
  induction L with
  | nil => intro b hb; cases hb
  | cons c L ih =>
    intro b hb herr st
    simp only [List.foldl_cons]
    rcases List.mem_cons.mp hb with rfl | hb2
    · cases st with
      | error e =>
        cases e
        rw [He]
        exact estate_foldl_absorb step He L
      | ok acc =>
        rw [Hok acc b, herr]
        exact estate_foldl_absorb step He L
    · exact ih b hb2 herr (step st c)

/-! ### Shape lemmas for the three loop levels of `convert` -/

/-- A cell step keeps a panic. -/
theorem chunkCellStep_He (cell : Nat → Nat → Except Unit (Option Entry)) :
    ∀ b, chunkCellStep cell (.error ()) b = .error () := fun _ => rfl

/-- A cell step appends the cell's contribution. -/
theorem chunkCellStep_Hok (cell : Nat → Nat → Except Unit (Option Entry)) :
    ∀ (acc : List Entry) b, chunkCellStep cell (.ok acc) b =
      match cellContrib cell b with
      | .error _ => .error ()
      | .ok l => .ok (acc ++ l) := by
  intro acc b
  unfold chunkCellStep cellContrib
  cases hc : cell b.1 b.2 with
  | error e => cases e; rfl
  | ok o =>
    cases o with
    | none => simp
    | some entry => rfl

/-- A chunk whose traversal starts panicked stays panicked. -/
theorem convertChunk_absorb (cell : Nat → Nat → Except Unit (Option Entry))
    (arr : List Nat) : convertChunk cell arr (.error ()) = .error () :=
  estate_foldl_absorb (chunkCellStep cell) (chunkCellStep_He cell) arr.enum

/-- Chunk traversal factors through the traversal from the empty output. -/
theorem convertChunk_shape (cell : Nat → Nat → Except Unit (Option Entry))
    (arr : List Nat) (acc : List Entry) :
    convertChunk cell arr (.ok acc) =
      match convertChunk cell arr (.ok []) with
      | .error _ => .error ()
      | .ok out => .ok (acc ++ out) :=
  estate_foldl_shape (chunkCellStep cell) (cellContrib cell) (chunkCellStep_He cell)
    (chunkCellStep_Hok cell) arr.enum acc

/-- Membership in one chunk's output comes from a producing cell. -/
theorem convertChunk_mem (cell : Nat → Nat → Except Unit (Option Entry))
    (arr : List Nat) (out : List Entry)
    (hres : convertChunk cell arr (.ok []) = .ok out) :
    ∀ e, e ∈ out ↔ ∃ i pid, (i, pid) ∈ arr.enum ∧ cell i pid = .ok (some e) := by
  intro e
  rw [estate_foldl_mem (chunkCellStep cell) (cellContrib cell) (chunkCellStep_He cell)
    (chunkCellStep_Hok cell) arr.enum out hres e]
  constructor
  · rintro ⟨b, hb, lb, hlb, hel⟩
    refine ⟨b.1, b.2, by simpa using hb, ?_⟩
    unfold cellContrib at hlb
    cases hc : cell b.1 b.2 with
    | error e2 => rw [hc] at hlb; cases hlb
    | ok o =>
      rw [hc] at hlb
      cases o with
      | none => cases hlb; cases hel
      | some a =>
        cases hlb
        rcases List.mem_singleton.mp hel with rfl
        rfl
  · rintro ⟨i, pid, hb, hcell⟩
    exact ⟨(i, pid), hb, [e], by unfold cellContrib; rw [hcell], List.mem_singleton.mpr rfl⟩

/-- A panicking cell makes its whole chunk traversal panic. -/
theorem convertChunk_force (cell : Nat → Nat → Except Unit (Option Entry))
    (arr : List Nat) (i pid : Nat) (hi : (i, pid) ∈ arr.enum)
    (hcell : cell i pid = .error ()) :
    ∀ st, convertChunk cell arr st = .error () :=
  estate_foldl_force (chunkCellStep cell) (cellContrib cell) (chunkCellStep_He cell)
    (chunkCellStep_Hok cell) arr.enum (i, pid) hi
    (by unfold cellContrib; rw [hcell])

/-- An inner-loop step keeps a panic. -/
theorem zStep_He (w : McWorld) (cell : Int → Int → Nat → Nat → Except Unit (Option Entry))
    (cx : Int) : ∀ cz, zStep w cell cx (.error ()) cz = .error () := by
  intro cz
  unfold zStep
  cases alookup ⟨cx, cz⟩ w.chunks with
  | none => rfl
  | some arr => exact convertChunk_absorb _ arr

/-- An inner-loop step appends the chunk coordinate's contribution. -/
theorem zStep_Hok (w : McWorld) (cell : Int → Int → Nat → Nat → Except Unit (Option Entry))
    (cx : Int) : ∀ (acc : List Entry) cz, zStep w cell cx (.ok acc) cz =
      match zContrib w cell cx cz with
      | .error _ => .error ()
      | .ok l => .ok (acc ++ l) := by
  intro acc cz
  unfold zStep zContrib zStep
  cases alookup ⟨cx, cz⟩ w.chunks with
  | none => simp
  | some arr => exact convertChunk_shape _ arr acc

/-- An outer-loop step keeps a panic. -/
theorem xStep_He (w : McWorld) (cell : Int → Int → Nat → Nat → Except Unit (Option Entry))
    (zlo zhi : Int) : ∀ cx, xStep w cell zlo zhi (.error ()) cx = .error () := by
  intro cx
  exact estate_foldl_absorb (zStep w cell cx) (zStep_He w cell cx) _

/-- An outer-loop step appends the column's contribution. -/
theorem xStep_Hok (w : McWorld) (cell : Int → Int → Nat → Nat → Except Unit (Option Entry))
    (zlo zhi : Int) : ∀ (acc : List Entry) cx, xStep w cell zlo zhi (.ok acc) cx =
      match xContrib w cell zlo zhi cx with
      | .error _ => .error ()
      | .ok l => .ok (acc ++ l) := by
  intro acc cx
  exact estate_foldl_shape (zStep w cell cx) (zContrib w cell cx) (zStep_He w cell cx)
    (zStep_Hok w cell cx) (intRange zlo zhi) acc

/-- `chunkRangeFold` is the outer fold of `xStep`. -/
theorem chunkRangeFold_eq (w : McWorld)
    (cell : Int → Int → Nat → Nat → Except Unit (Option Entry)) (xlo xhi zlo zhi : Int) :
    chunkRangeFold w cell xlo xhi zlo zhi =
      (intRange xlo xhi).foldl (xStep w cell zlo zhi) (.ok []) := rfl

/-- Membership in a `chunkRangeFold` output comes from a producing cell of a
stored chunk inside the iterated rectangle. -/
theorem chunkRangeFold_mem (w : McWorld)
    (cell : Int → Int → Nat → Nat → Except Unit (Option Entry)) (xlo xhi zlo zhi : Int)
    (out : List Entry) (hres : chunkRangeFold w cell xlo xhi zlo zhi = .ok out) :
    ∀ e, e ∈ out ↔ ∃ cx cz arr i pid,
      cx ∈ intRange xlo xhi ∧ cz ∈ intRange zlo zhi ∧
      alookup ⟨cx, cz⟩ w.chunks = some arr ∧ (i, pid) ∈ arr.enum ∧
      cell cx cz i pid = .ok (some e) := by
  rw [chunkRangeFold_eq] at hres
  intro e
  rw [estate_foldl_mem (xStep w cell zlo zhi) (xContrib w cell zlo zhi)
    (xStep_He w cell zlo zhi) (xStep_Hok w cell zlo zhi) (intRange xlo xhi) out hres e]
  constructor
  · rintro ⟨cx, hcx, lx, hlx, helx⟩
    rw [estate_foldl_mem (zStep w cell cx) (zContrib w cell cx) (zStep_He w cell cx)
      (zStep_Hok w cell cx) (intRange zlo zhi) lx hlx e] at helx
    rcases helx with ⟨cz, hcz, lz, hlz, helz⟩
    unfold zContrib zStep at hlz
    cases harr : alookup ⟨cx, cz⟩ w.chunks with
    | none =>
      rw [harr] at hlz
      cases hlz
      cases helz
    | some arr =>
      rw [harr] at hlz
      rcases (convertChunk_mem _ arr lz hlz e).mp helz with ⟨i, pid, hi, hcell⟩
      exact ⟨cx, cz, arr, i, pid, hcx, hcz, harr, hi, hcell⟩
  · rintro ⟨cx, cz, arr, i, pid, hcx, hcz, harr, hi, hcell⟩
    have hchunkok : ∃ lz, convertChunk (cell cx cz) arr (.ok []) = .ok lz ∧ e ∈ lz := by
      cases hcc : convertChunk (cell cx cz) arr (.ok []) with
      | error e2 =>
        cases e2
        exfalso
        have hz : zContrib w cell cx cz = .error () := by
          unfold zContrib zStep
          rw [harr]
          exact hcc
        have hx : xContrib w cell zlo zhi cx = .error () :=
          estate_foldl_force (zStep w cell cx) (zContrib w cell cx) (zStep_He w cell cx)
            (zStep_Hok w cell cx) (intRange zlo zhi) cz hcz hz (.ok [])
        have hall : (intRange xlo xhi).foldl (xStep w cell zlo zhi) (.ok []) = .error () :=
          estate_foldl_force (xStep w cell zlo zhi) (xContrib w cell zlo zhi)
            (xStep_He w cell zlo zhi) (xStep_Hok w cell zlo zhi) (intRange xlo xhi) cx hcx hx
            (.ok [])
        rw [hall] at hres
        cases hres
      | ok lz =>
        exact ⟨lz, rfl, (convertChunk_mem _ arr lz hcc e).mpr ⟨i, pid, hi, hcell⟩⟩
    rcases hchunkok with ⟨lz, hcc, helz⟩
    have hzc : zContrib w cell cx cz = .ok lz := by
      unfold zContrib zStep
      rw [harr]
      exact hcc
    cases hx : xContrib w cell zlo zhi cx with
    | error e2 =>
      cases e2
      exfalso
      have hall : (intRange xlo xhi).foldl (xStep w cell zlo zhi) (.ok []) = .error () :=
        estate_foldl_force (xStep w cell zlo zhi) (xContrib w cell zlo zhi)
          (xStep_He w cell zlo zhi) (xStep_Hok w cell zlo zhi) (intRange xlo xhi) cx hcx hx
          (.ok [])
      rw [hall] at hres
      cases hres
    | ok lx =>
      refine ⟨cx, hcx, lx, hx, ?_⟩
      have hmem := estate_foldl_mem (zStep w cell cx) (zContrib w cell cx)
        (zStep_He w cell cx) (zStep_Hok w cell cx) (intRange zlo zhi) lx hx e
      exact hmem.mpr ⟨cz, hcz, lz, hzc, helz⟩

/-- A panicking cell of a stored chunk inside the rectangle makes the whole
traversal panic. -/
theorem chunkRangeFold_force (w : McWorld)
    (cell : Int → Int → Nat → Nat → Except Unit (Option Entry)) (xlo xhi zlo zhi : Int)
    (cx cz : Int) (arr : List Nat) (i pid : Nat)
    (hcx : cx ∈ intRange xlo xhi) (hcz : cz ∈ intRange zlo zhi)
    (harr : alookup ⟨cx, cz⟩ w.chunks = some arr) (hi : (i, pid) ∈ arr.enum)
    (hcell : cell cx cz i pid = .error ()) :
    chunkRangeFold w cell xlo xhi zlo zhi = .error () := by
  rw [chunkRangeFold_eq]
  have hz : zContrib w cell cx cz = .error () := by
    unfold zContrib zStep
    rw [harr]
    exact convertChunk_force _ arr i pid hi hcell (.ok [])
  have hx : xContrib w cell zlo zhi cx = .error () :=
    estate_foldl_force (zStep w cell cx) (zContrib w cell cx) (zStep_He w cell cx)
      (zStep_Hok w cell cx) (intRange zlo zhi) cz hcz hz (.ok [])
  exact estate_foldl_force (xStep w cell zlo zhi) (xContrib w cell zlo zhi)
    (xStep_He w cell zlo zhi) (xStep_Hok w cell zlo zhi) (intRange xlo xhi) cx hcx hx (.ok [])

/-- Membership in the inclusive integer range list. -/
theorem mem_intRange (lo hi v : Int) : v ∈ intRange lo hi ↔ lo ≤ v ∧ v ≤ hi := by
  unfold intRange
  simp only [List.mem_map, List.mem_range]
  constructor
  · rintro ⟨k, hk, rfl⟩
    omega
  · rintro ⟨h1, h2⟩
    exact ⟨(v - lo).toNat, by omega, by omega⟩

/-- `minInt?` of a non-empty list exists. -/
theorem minInt?_cons (a : Int) (l : List Int) : ∃ m, minInt? (a :: l) = some m := by
  unfold minInt?
  cases minInt? l with
  | none => exact ⟨a, rfl⟩
  | some b => exact ⟨min a b, rfl⟩

/-- `maxInt?` of a non-empty list exists. -/
theorem maxInt?_cons (a : Int) (l : List Int) : ∃ m, maxInt? (a :: l) = some m := by
  unfold maxInt?
  cases maxInt? l with
  | none => exact ⟨a, rfl⟩
  | some b => exact ⟨max a b, rfl⟩

/-- The computed minimum is a lower bound for every member. -/
theorem minInt?_le (l : List Int) (m v : Int) (hm : minInt? l = some m) (hv : v ∈ l) :
    m ≤ v := by
  induction l generalizing m with
  | nil => cases hv
  | cons a rest ih =>
    unfold minInt? at hm
    rcases List.mem_cons.mp hv with rfl | hv2
    · cases hrest : minInt? rest with
      | none => rw [hrest] at hm; cases hm; exact le_refl _
      | some b => rw [hrest] at hm; cases hm; exact min_le_left _ _
    · cases hrest : minInt? rest with
      | none =>
        rcases rest with _ | ⟨c, rest2⟩
        · cases hv2
        · rcases minInt?_cons c rest2 with ⟨m2, hm2⟩
          rw [hm2] at hrest
          cases hrest
      | some b =>
        rw [hrest] at hm
        cases hm
        exact le_trans (min_le_right a b) (ih b hrest hv2)

/-- The computed maximum is an upper bound for every member. -/
theorem maxInt?_ge (l : List Int) (m v : Int) (hm : maxInt? l = some m) (hv : v ∈ l) :
    v ≤ m := by
  induction l generalizing m with
  | nil => cases hv
  | cons a rest ih =>
    unfold maxInt? at hm
    rcases List.mem_cons.mp hv with rfl | hv2
    · cases hrest : maxInt? rest with
      | none => rw [hrest] at hm; cases hm; exact le_refl _
      | some b => rw [hrest] at hm; cases hm; exact le_max_left _ _
    · cases hrest : maxInt? rest with
      | none =>
        rcases rest with _ | ⟨c, rest2⟩
        · cases hv2
        · rcases maxInt?_cons c rest2 with ⟨m2, hm2⟩
          rw [hm2] at hrest
          cases hrest
      | some b =>
        rw [hrest] at hm
        cases hm
        exact le_trans (ih b hrest hv2) (le_max_right a b)

/-! ### Per-cell evaluation and inversion lemmas -/

/-- An air cell is skipped by the bounded per-cell body whatever the rules. -/
theorem convertCellBounded_air (palette : List String) (gm : String → String → Bool)
    (rules : List (String × Nat)) (minP maxP : Vec3) (sx sy sz cx cz : Int)
    (i pid : Nat) (hp : palette.get? pid = some "minecraft:air") :
    convertCellBounded palette gm rules minP maxP sx sy sz cx cz i pid = .ok none := by
  unfold convertCellBounded
  simp only [List.get?_eq_getElem?] at hp
  cases hin : isInsideRegion minP maxP (cellGlobalX cx i) (cellGlobalY i) (cellGlobalZ cz i) with
  | false => simp [hin]
  | true => simp [hin, hp]

/-- An air cell is skipped by the unbounded per-cell body whatever the rules. -/
theorem convertCellUnbounded_air (palette : List String) (gm : String → String → Bool)
    (rules : List (String × Nat)) (sx sz cx cz : Int) (i pid : Nat)
    (hp : palette.get? pid = some "minecraft:air") :
    convertCellUnbounded palette gm rules sx sz cx cz i pid = .ok none := by
  unfold convertCellUnbounded
  simp only [List.get?_eq_getElem?] at hp
  simp [hp]

/-- Evaluation of the bounded per-cell body on an in-region, non-air cell. -/
theorem convertCellBounded_eval (palette : List String) (gm : String → String → Bool)
    (rules : List (String × Nat)) (minP maxP : Vec3) (sx sy sz cx cz : Int)
    (i pid : Nat) (name : String)
    (hin : isInsideRegion minP maxP (cellGlobalX cx i) (cellGlobalY i) (cellGlobalZ cz i) = true)
    (hp : palette.get? pid = some name) (hair : name ≠ "minecraft:air") :
    convertCellBounded palette gm rules minP maxP sx sy sz cx cz i pid =
      .ok ((firstMatch gm rules name).map fun id =>
        ((cellGlobalX cx i - sx, cellGlobalY i - sy, cellGlobalZ cz i - sz), id)) := by
  unfold convertCellBounded
  simp only [List.get?_eq_getElem?] at hp
  simp [hin, hp, hair]

/-- Evaluation of the unbounded per-cell body on a non-air cell. -/
theorem convertCellUnbounded_eval (palette : List String) (gm : String → String → Bool)
    (rules : List (String × Nat)) (sx sz cx cz : Int) (i pid : Nat) (name : String)
    (hp : palette.get? pid = some name) (hair : name ≠ "minecraft:air") :
    convertCellUnbounded palette gm rules sx sz cx cz i pid =
      .ok ((firstMatch gm rules name).map fun id =>
        ((cellGlobalX cx i - sx, cellGlobalY i, cellGlobalZ cz i - sz), id)) := by
  unfold convertCellUnbounded
  simp only [List.get?_eq_getElem?] at hp
  simp [hp, hair]

/-- The unbounded per-cell body panics on an out-of-palette id. -/
theorem convertCellUnbounded_panic (palette : List String) (gm : String → String → Bool)
    (rules : List (String × Nat)) (sx sz cx cz : Int) (i pid : Nat)
    (hp : palette.get? pid = none) :
    convertCellUnbounded palette gm rules sx sz cx cz i pid = .error () := by
  unfold convertCellUnbounded
  simp only [List.get?_eq_getElem?] at hp
  simp [hp]

/-- Inversion: a produced entry of the bounded per-cell body comes from an
in-region, non-air, first-match cell, and its key is the offset coordinate. -/
theorem convertCellBounded_inv (palette : List String) (gm : String → String → Bool)
    (rules : List (String × Nat)) (minP maxP : Vec3) (sx sy sz cx cz : Int)
    (i pid : Nat) (e : Entry)
    (h : convertCellBounded palette gm rules minP maxP sx sy sz cx cz i pid = .ok (some e)) :
    isInsideRegion minP maxP (cellGlobalX cx i) (cellGlobalY i) (cellGlobalZ cz i) = true ∧
    ∃ name v, palette.get? pid = some name ∧ name ≠ "minecraft:air" ∧
      firstMatch gm rules name = some v ∧
      e = ((cellGlobalX cx i - sx, cellGlobalY i - sy, cellGlobalZ cz i - sz), v) := by
  simp only [convertCellBounded] at h
  by_cases hin : isInsideRegion minP maxP (cellGlobalX cx i) (cellGlobalY i) (cellGlobalZ cz i) = true
  case neg =>
    rw [if_neg hin] at h
    cases h
  case pos =>
    rw [if_pos hin] at h
    refine ⟨hin, ?_⟩
    cases hp : palette.get? pid with
    | none =>
      rw [hp] at h
      dsimp only at h
      cases h
    | some name =>
      rw [hp] at h
      dsimp only at h
      by_cases hair : name = "minecraft:air"
      · rw [if_pos hair] at h
        cases h
      · rw [if_neg hair] at h
        rcases Option.map_eq_some'.mp (Except.ok.inj h) with ⟨v, hv, hev⟩
        exact ⟨name, v, rfl, hair, hv, hev.symm⟩

/-- Inversion: a produced entry of the unbounded per-cell body comes from a
non-air, first-match cell; its dy is the raw `global_y`. -/
theorem convertCellUnbounded_inv (palette : List String) (gm : String → String → Bool)
    (rules : List (String × Nat)) (sx sz cx cz : Int) (i pid : Nat) (e : Entry)
    (h : convertCellUnbounded palette gm rules sx sz cx cz i pid = .ok (some e)) :
    ∃ name v, palette.get? pid = some name ∧ name ≠ "minecraft:air" ∧
      firstMatch gm rules name = some v ∧
      e = ((cellGlobalX cx i - sx, cellGlobalY i, cellGlobalZ cz i - sz), v) := by
  simp only [convertCellUnbounded] at h
  cases hp : palette.get? pid with
  | none =>
    rw [hp] at h
    dsimp only at h
    cases h
  | some name =>
    rw [hp] at h
    dsimp only at h
    by_cases hair : name = "minecraft:air"
    · rw [if_pos hair] at h
      cases h
    · rw [if_neg hair] at h
      rcases Option.map_eq_some'.mp (Except.ok.inj h) with ⟨v, hv, hev⟩
      exact ⟨name, v, rfl, hair, hv, hev.symm⟩

/-! ### Mode selection of `convert` -/

/-- An empty chunk store short-circuits `convert` to the empty mapping. -/
theorem convert_empty (w : McWorld) (mp Mp : Option Vec3) (rules : List (String × Nat))
    (gm : String → String → Bool) (hch : w.chunks = []) :
    convert w mp Mp rules gm = .ok [] := by
  unfold convert
  rw [hch]

/-- With a non-empty store and both bounds supplied, `convert` is the bounded
traversal (with a panic surfacing as `panicked`). -/
theorem convert_bounded_eq (w : McWorld) (minP maxP : Vec3) (rules : List (String × Nat))
    (gm : String → String → Bool) (a : Vec2 × List Nat) (rest : List (Vec2 × List Nat))
    (hch : w.chunks = a :: rest) :
    convert w (some minP) (some maxP) rules gm =
      match convertBoundedFold w minP maxP rules gm with
      | .error _ => .panicked
      | .ok out => .ok out := by
  unfold convert convertBoundedFold
  rw [hch]

/-- With a non-empty store and a missing bound, `convert` is the unbounded
traversal over the derived per-axis chunk extrema. -/
theorem convert_unbounded_eq (w : McWorld) (mp Mp : Option Vec3)
    (rules : List (String × Nat)) (gm : String → String → Bool)
    (hmode : mp = none ∨ Mp = none) (a : Vec2 × List Nat) (rest : List (Vec2 × List Nat))
    (hch : w.chunks = a :: rest) (mnx mnz mxx mxz : Int)
    (h1 : minInt? ((a :: rest).map fun e => e.1.x) = some mnx)
    (h2 : minInt? ((a :: rest).map fun e => e.1.z) = some mnz)
    (h3 : maxInt? ((a :: rest).map fun e => e.1.x) = some mxx)
    (h4 : maxInt? ((a :: rest).map fun e => e.1.z) = some mxz) :
    convert w mp Mp rules gm =
      match convertUnboundedFold w rules gm mnx mxx mnz mxz with
      | .error _ => .panicked
      | .ok out => .ok out := by
  unfold convert convertUnboundedFold
  rw [hch]
  rcases hmode with rfl | rfl
  · dsimp only
    rw [h1, h2, h3, h4]
  · cases mp with
    | none =>
      dsimp only
      rw [h1, h2, h3, h4]
    | some minP =>
      dsimp only
      rw [h1, h2, h3, h4]

/-- Inversion of a successful bounded `convert`. -/
theorem convert_bounded_ok (w : McWorld) (minP maxP : Vec3) (rules : List (String × Nat))
    (gm : String → String → Bool) (out : List Entry)
    (h : convert w (some minP) (some maxP) rules gm = .ok out) :
    (w.chunks = [] ∧ out = []) ∨ convertBoundedFold w minP maxP rules gm = .ok out := by
  cases hch : w.chunks with
  | nil =>
    rw [convert_empty w _ _ rules gm hch] at h
    cases h
    exact Or.inl ⟨rfl, rfl⟩
  | cons a rest =>
    right
    rw [convert_bounded_eq w minP maxP rules gm a rest hch] at h
    cases hf : convertBoundedFold w minP maxP rules gm with
    | error e =>
      rw [hf] at h
      dsimp only at h
      cases h
    | ok l =>
      rw [hf] at h
      dsimp only at h
      cases h
      rfl

/-- Inversion of a successful unbounded `convert`: the per-axis extrema exist
and the unbounded traversal produced the output. -/
theorem convert_unbounded_ok (w : McWorld) (mp Mp : Option Vec3)
    (rules : List (String × Nat)) (gm : String → String → Bool) (out : List Entry)
    (hmode : mp = none ∨ Mp = none) (h : convert w mp Mp rules gm = .ok out) :
    (w.chunks = [] ∧ out = []) ∨ ∃ mnx mnz mxx mxz,
      minInt? (w.chunks.map fun e => e.1.x) = some mnx ∧
      minInt? (w.chunks.map fun e => e.1.z) = some mnz ∧
      maxInt? (w.chunks.map fun e => e.1.x) = some mxx ∧
      maxInt? (w.chunks.map fun e => e.1.z) = some mxz ∧
      convertUnboundedFold w rules gm mnx mxx mnz mxz = .ok out := by
  cases hch : w.chunks with
  | nil =>
    rw [convert_empty w mp Mp rules gm hch] at h
    cases h
    exact Or.inl ⟨rfl, rfl⟩
  | cons a rest =>
    right
    obtain ⟨mnx, h1⟩ : ∃ m, minInt? ((a :: rest).map fun e => e.1.x) = some m := by
      simp only [List.map_cons]
      exact minInt?_cons _ _
    obtain ⟨mnz, h2⟩ : ∃ m, minInt? ((a :: rest).map fun e => e.1.z) = some m := by
      simp only [List.map_cons]
      exact minInt?_cons _ _
    obtain ⟨mxx, h3⟩ : ∃ m, maxInt? ((a :: rest).map fun e => e.1.x) = some m := by
      simp only [List.map_cons]
      exact maxInt?_cons _ _
    obtain ⟨mxz, h4⟩ : ∃ m, maxInt? ((a :: rest).map fun e => e.1.z) = some m := by
      simp only [List.map_cons]
      exact maxInt?_cons _ _
    refine ⟨mnx, mnz, mxx, mxz, h1, h2, h3, h4, ?_⟩
    rw [convert_unbounded_eq w mp Mp rules gm hmode a rest hch mnx mnz mxx mxz h1 h2 h3 h4] at h
    cases hf : convertUnboundedFold w rules gm mnx mxx mnz mxz with
    | error e =>
      rw [hf] at h
      dsimp only at h
      cases h
    | ok l =>
      rw [hf] at h
      dsimp only at h
      cases h
      rfl

/-! ### Per-entry characterization of `convert` outputs -/

/-- Every entry of a successful bounded `convert` comes from a stored,
in-rectangle, in-region, non-air, first-match cell, and its key is the
recentred coordinate. -/
theorem convert_bounded_mem (w : McWorld) (minP maxP : Vec3)
    (rules : List (String × Nat)) (gm : String → String → Bool) (out : List Entry)
    (e : Entry) (hok : convert w (some minP) (some maxP) rules gm = .ok out)
    (hmem : e ∈ out) :
    ∃ cx cz arr i pid name v,
      cx ∈ intRange (Int.fdiv minP.x 16) (Int.fdiv maxP.x 16) ∧
      cz ∈ intRange (Int.fdiv minP.z 16) (Int.fdiv maxP.z 16) ∧
      alookup ⟨cx, cz⟩ w.chunks = some arr ∧ (i, pid) ∈ arr.enum ∧
      isInsideRegion minP maxP (cellGlobalX cx i) (cellGlobalY i) (cellGlobalZ cz i) = true ∧
      w.palette.get? pid = some name ∧ name ≠ "minecraft:air" ∧
      firstMatch gm rules name = some v ∧
      e = ((cellGlobalX cx i - (minP.x + Int.tdiv (maxP.x - minP.x) 2),
            cellGlobalY i - minP.y,
            cellGlobalZ cz i - (minP.z + Int.tdiv (maxP.z - minP.z) 2)), v) := by
  rcases convert_bounded_ok w minP maxP rules gm out hok with ⟨_, rfl⟩ | hfold
  · cases hmem
  · unfold convertBoundedFold at hfold
    rcases (chunkRangeFold_mem _ _ _ _ _ _ out hfold e).mp hmem with
      ⟨cx, cz, arr, i, pid, hcx, hcz, harr, hi, hcell⟩
    rcases convertCellBounded_inv _ _ _ _ _ _ _ _ _ _ _ _ _ hcell with
      ⟨hin, name, v, hp, hair, hfm, hkey⟩
    exact ⟨cx, cz, arr, i, pid, name, v, hcx, hcz, harr, hi, hin, hp, hair, hfm, hkey⟩

/-- Every entry of a successful unbounded `convert` comes from a stored,
non-air, first-match cell of the derived chunk rectangle; its `dy` is the raw
`global_y` and its `dx`/`dz` subtract the chunk-extent-centered offsets. -/
theorem convert_unbounded_mem (w : McWorld) (mp Mp : Option Vec3)
    (rules : List (String × Nat)) (gm : String → String → Bool) (out : List Entry)
    (e : Entry) (hmode : mp = none ∨ Mp = none)
    (hok : convert w mp Mp rules gm = .ok out) (hmem : e ∈ out) :
    ∃ mnx mnz mxx mxz cx cz arr i pid name v,
      minInt? (w.chunks.map fun en => en.1.x) = some mnx ∧
      minInt? (w.chunks.map fun en => en.1.z) = some mnz ∧
      maxInt? (w.chunks.map fun en => en.1.x) = some mxx ∧
      maxInt? (w.chunks.map fun en => en.1.z) = some mxz ∧
      cx ∈ intRange mnx mxx ∧ cz ∈ intRange mnz mxz ∧
      alookup ⟨cx, cz⟩ w.chunks = some arr ∧ (i, pid) ∈ arr.enum ∧
      w.palette.get? pid = some name ∧ name ≠ "minecraft:air" ∧
      firstMatch gm rules name = some v ∧
      e = ((cellGlobalX cx i - (mnx + Int.tdiv (mxx - mnx) 2), cellGlobalY i,
            cellGlobalZ cz i - (mnz + Int.tdiv (mxz - mnz) 2)), v) := by
  rcases convert_unbounded_ok w mp Mp rules gm out hmode hok with
    ⟨_, rfl⟩ | ⟨mnx, mnz, mxx, mxz, h1, h2, h3, h4, hfold⟩
  · cases hmem
  · unfold convertUnboundedFold at hfold
    rcases (chunkRangeFold_mem _ _ _ _ _ _ out hfold e).mp hmem with
      ⟨cx, cz, arr, i, pid, hcx, hcz, harr, hi, hcell⟩
    rcases convertCellUnbounded_inv _ _ _ _ _ _ _ _ _ _ hcell with
      ⟨name, v, hp, hair, hfm, hkey⟩
    exact ⟨mnx, mnz, mxx, mxz, cx, cz, arr, i, pid, name, v, h1, h2, h3, h4, hcx, hcz,
      harr, hi, hp, hair, hfm, hkey⟩

/-! ### Claim theorems -/

/-- C1: for every bounded `convert` call and every key `(dx, dy, dz)` of its
output, the reconstructed absolute coordinate `(dx + sub_x, dy + sub_y,
dz + sub_z)` — with `sub_x = min_pos.x + (max_pos.x - min_pos.x) / 2`
(truncating division), `sub_y = min_pos.y`, `sub_z` analogous to `sub_x` —
lies within `[min_pos, max_pos]` inclusive on every axis. -/
theorem C1_bounded_convert_containment (w : McWorld) (minP maxP : Vec3)
    (rules : List (String × Nat)) (gm : String → String → Bool) (out : List Entry)
    (dx dy dz : Int) (v : Nat)
    (hok : convert w (some minP) (some maxP) rules gm = .ok out)
    (hmem : ((dx, dy, dz), v) ∈ out) :
    (minP.x ≤ dx + (minP.x + Int.tdiv (maxP.x - minP.x) 2) ∧
      dx + (minP.x + Int.tdiv (maxP.x - minP.x) 2) ≤ maxP.x) ∧
    (minP.y ≤ dy + minP.y ∧ dy + minP.y ≤ maxP.y) ∧
    (minP.z ≤ dz + (minP.z + Int.tdiv (maxP.z - minP.z) 2) ∧
      dz + (minP.z + Int.tdiv (maxP.z - minP.z) 2) ≤ maxP.z) := by
  rcases convert_bounded_mem w minP maxP rules gm out _ hok hmem with
    ⟨cx, cz, arr, i, pid, name, v2, hcx, hcz, harr, hi, hin, hp, hair, hfm, hkey⟩
  unfold isInsideRegion at hin
  simp only [Bool.and_eq_true, decide_eq_true_eq] at hin
  obtain ⟨⟨⟨⟨⟨h1, h2⟩, h3⟩, h4⟩, h5⟩, h6⟩ := hin
  simp only [Prod.mk.injEq] at hkey
  obtain ⟨⟨hdx, hdy, hdz⟩, hv⟩ := hkey
  subst hdx hdy hdz
  refine ⟨⟨?_, ?_⟩, ⟨?_, ?_⟩, ⟨?_, ?_⟩⟩ <;> rw [sub_add_cancel] <;> assumption

/-- C1 witness: a concrete bounded call whose output is non-empty, with the
claim's hypotheses discharged by computation. -/
theorem C1_witness :
    convert stoneWorld (some ⟨0, 0, 0⟩) (some ⟨0, 0, 0⟩) stoneRules gmEq =
        .ok [((0, 0, 0), 5)] ∧
      (((0 : Int), (0 : Int), (0 : Int)), (5 : Nat)) ∈
        ([(((0 : Int), (0 : Int), (0 : Int)), (5 : Nat))] : List Entry) ∧
      ((0 : Int) ≤ 0 + (0 + Int.tdiv (0 - 0) 2) ∧ 0 + (0 + Int.tdiv (0 - 0) 2) ≤ 0) :=
  ⟨by decide, by decide,
    (C1_bounded_convert_containment stoneWorld ⟨0, 0, 0⟩ ⟨0, 0, 0⟩ stoneRules gmEq
      [((0, 0, 0), 5)] 0 0 0 5 (by decide) (by decide)).1⟩

/-- C3: a cell resolving to `"minecraft:air"` is skipped by the per-cell body
of either mode without consulting the rules (the result is `.ok none` for
every rule list and matcher), and consequently every output entry of any
`convert` call comes from a source cell resolving to a non-air name. -/
theorem C3_air_exclusion :
    (∀ (palette : List String) (gm gm2 : String → String → Bool)
        (rules rules2 : List (String × Nat)) (minP maxP : Vec3)
        (sx sy sz sx2 sz2 cx cz : Int) (i pid : Nat),
        palette.get? pid = some "minecraft:air" →
        convertCellBounded palette gm rules minP maxP sx sy sz cx cz i pid = .ok none ∧
        convertCellUnbounded palette gm2 rules2 sx2 sz2 cx cz i pid = .ok none) ∧
    (∀ (w : McWorld) (mp Mp : Option Vec3) (rules : List (String × Nat))
        (gm : String → String → Bool) (out : List Entry) (e : Entry),
        convert w mp Mp rules gm = .ok out → e ∈ out →
        ∃ cx cz arr i pid name,
          alookup ⟨cx, cz⟩ w.chunks = some arr ∧ (i, pid) ∈ arr.enum ∧
          w.palette.get? pid = some name ∧ name ≠ "minecraft:air") := by
  constructor
  · intro palette gm gm2 rules rules2 minP maxP sx sy sz sx2 sz2 cx cz i pid hp
    exact ⟨convertCellBounded_air palette gm rules minP maxP sx sy sz cx cz i pid hp,
      convertCellUnbounded_air palette gm2 rules2 sx2 sz2 cx cz i pid hp⟩
  · intro w mp Mp rules gm out e hok hmem
    cases mp with
    | none =>
      rcases convert_unbounded_mem w none Mp rules gm out e (Or.inl rfl) hok hmem with
        ⟨_, _, _, _, cx, cz, arr, i, pid, name, v, _, _, _, _, _, _, harr, hi, hp, hair, _, _⟩
      exact ⟨cx, cz, arr, i, pid, name, harr, hi, hp, hair⟩
    | some minP =>
      cases Mp with
      | none =>
        rcases convert_unbounded_mem w (some minP) none rules gm out e (Or.inr rfl) hok hmem with
          ⟨_, _, _, _, cx, cz, arr, i, pid, name, v, _, _, _, _, _, _, harr, hi, hp, hair, _, _⟩
        exact ⟨cx, cz, arr, i, pid, name, harr, hi, hp, hair⟩
      | some maxP =>
        rcases convert_bounded_mem w minP maxP rules gm out e hok hmem with
          ⟨cx, cz, arr, i, pid, name, v, _, _, harr, hi, _, hp, hair, _, _⟩
        exact ⟨cx, cz, arr, i, pid, name, harr, hi, hp, hair⟩

/-- C3 witness: the air-skip at a concrete air cell, and the non-air origin of
a concrete output entry. -/
theorem C3_witness :
    (["minecraft:air"].get? 0 = some "minecraft:air" ∧
      convertCellBounded ["minecraft:air"] gmEq stoneRules ⟨0, 0, 0⟩ ⟨0, 0, 0⟩ 0 0 0 0 0 0 0 =
        .ok none) ∧
    (convert stoneWorld none none stoneRules gmEq = .ok [((0, 0, 0), 5)] ∧
      ∃ cx cz arr i pid name,
        alookup ⟨cx, cz⟩ stoneWorld.chunks = some arr ∧ (i, pid) ∈ arr.enum ∧
        stoneWorld.palette.get? pid = some name ∧ name ≠ "minecraft:air") :=
  ⟨⟨by decide,
    (C3_air_exclusion.1 ["minecraft:air"] gmEq gmEq stoneRules stoneRules ⟨0, 0, 0⟩ ⟨0, 0, 0⟩
      0 0 0 0 0 0 0 0 0 (by decide)).1⟩,
   ⟨by decide,
    C3_air_exclusion.2 stoneWorld none none stoneRules gmEq [((0, 0, 0), 5)] ((0, 0, 0), 5)
      (by decide) (by decide)⟩⟩

/-- The rule scan returns `some v` exactly when the rule list splits as
`pre ++ (p, v) :: post` with `p` matching and every pattern in `pre` failing:
the first match in iteration order wins. -/
theorem firstMatch_some_iff (gm : String → String → Bool) (rules : List (String × Nat))
    (block : String) (v : Nat) :
    firstMatch gm rules block = some v ↔
      ∃ pre p post, rules = pre ++ (p, v) :: post ∧ gm p block = true ∧
        ∀ q u, (q, u) ∈ pre → gm q block = false := by
  induction rules with
  | nil =>
    simp only [firstMatch]
    constructor
    · intro h
      cases h
    · rintro ⟨pre, p, post, heq, -, -⟩
      cases pre <;> cases heq
  | cons r rest ih =>
    obtain ⟨q, u⟩ := r
    simp only [firstMatch]
    by_cases hq : gm q block = true
    · rw [if_pos hq]
      constructor
      · intro h
        injection h with h
        subst h
        exact ⟨[], q, rest, rfl, hq, fun q2 u2 h2 => absurd h2 (List.not_mem_nil _)⟩
      · rintro ⟨pre, p, post, heq, hp, hpre⟩
        cases pre with
        | nil =>
          simp only [List.nil_append] at heq
          injection heq with h1 h2
          injection h1 with hq1 hu1
          rw [hu1]
        | cons r2 pre2 =>
          simp only [List.cons_append] at heq
          injection heq with h1 h2
          have hf := hpre q u (h1 ▸ List.mem_cons_self r2 pre2)
          rw [hf] at hq
          cases hq
    · have hqf : gm q block = false := by
        revert hq
        cases gm q block <;> simp
      rw [if_neg hq, ih]
      constructor
      · rintro ⟨pre, p, post, heq, hp, hpre⟩
        refine ⟨(q, u) :: pre, p, post, by rw [heq]; rfl, hp, ?_⟩
        intro q2 u2 h2
        rcases List.mem_cons.mp h2 with heq2 | h3
        · injection heq2 with a b
          rw [a]
          exact hqf
        · exact hpre q2 u2 h3
      · rintro ⟨pre, p, post, heq, hp, hpre⟩
        cases pre with
        | nil =>
          simp only [List.nil_append] at heq
          injection heq with h1 h2
          injection h1 with hq1 hu1
          rw [← hq1] at hp
          rw [hp] at hqf
          cases hqf
        | cons r2 pre2 =>
          simp only [List.cons_append] at heq
          injection heq with h1 h2
          exact ⟨pre2, p, post, h2, hp, fun q2 u2 h3 => hpre q2 u2 (List.mem_cons_of_mem _ h3)⟩

/-- The rule scan returns `none` exactly when no supplied pattern matches. -/
theorem firstMatch_none_iff (gm : String → String → Bool) (rules : List (String × Nat))
    (block : String) :
    firstMatch gm rules block = none ↔ ∀ p u, (p, u) ∈ rules → gm p block = false := by
  induction rules with
  | nil =>
    simp [firstMatch]
  | cons r rest ih =>
    obtain ⟨q, u⟩ := r
    simp only [firstMatch]
    by_cases hq : gm q block = true
    · rw [if_pos hq]
      constructor
      · intro h
        cases h
      · intro h
        have := h q u (List.mem_cons_self _ _)
        rw [this] at hq
        cases hq
    · have hqf : gm q block = false := by
        revert hq
        cases gm q block <;> simp
      rw [if_neg hq, ih]
      constructor
      · intro h p u2 h2
        rcases List.mem_cons.mp h2 with heq2 | h3
        · injection heq2 with a b
          rw [a]
          exact hqf
        · exact h p u2 h3
      · intro h p u2 h3
        exact h p u2 (List.mem_cons_of_mem _ h3)

/-- C4: for every visited non-air cell the rules are scanned in iteration
order — the scan's result is exactly the first matching rule's id (`none` iff
no pattern matches); an in-bounds matching cell writes that id at its
`(dx, dy, dz)` key into the output; a cell with no matching rule produces no
entry in either mode. -/
theorem C4_rule_resolution (gm : String → String → Bool) :
    (∀ (rules : List (String × Nat)) (block : String) (v : Nat),
      firstMatch gm rules block = some v ↔
        ∃ pre p post, rules = pre ++ (p, v) :: post ∧ gm p block = true ∧
          ∀ q u, (q, u) ∈ pre → gm q block = false) ∧
    (∀ (rules : List (String × Nat)) (block : String),
      firstMatch gm rules block = none ↔ ∀ p u, (p, u) ∈ rules → gm p block = false) ∧
    (∀ (w : McWorld) (minP maxP : Vec3) (rules : List (String × Nat)) (out : List Entry)
        (cx cz : Int) (arr : List Nat) (i pid : Nat) (name : String) (v : Nat),
      convert w (some minP) (some maxP) rules gm = .ok out →
      cx ∈ intRange (Int.fdiv minP.x 16) (Int.fdiv maxP.x 16) →
      cz ∈ intRange (Int.fdiv minP.z 16) (Int.fdiv maxP.z 16) →
      alookup ⟨cx, cz⟩ w.chunks = some arr → (i, pid) ∈ arr.enum →
      isInsideRegion minP maxP (cellGlobalX cx i) (cellGlobalY i) (cellGlobalZ cz i) = true →
      w.palette.get? pid = some name → name ≠ "minecraft:air" →
      firstMatch gm rules name = some v →
      ((cellGlobalX cx i - (minP.x + Int.tdiv (maxP.x - minP.x) 2),
        cellGlobalY i - minP.y,
        cellGlobalZ cz i - (minP.z + Int.tdiv (maxP.z - minP.z) 2)), v) ∈ out) ∧
    (∀ (palette : List String) (rules : List (String × Nat)) (minP maxP : Vec3)
        (sx sy sz sx2 sz2 cx cz : Int) (i pid : Nat) (name : String),
      palette.get? pid = some name → name ≠ "minecraft:air" →
      firstMatch gm rules name = none →
      convertCellBounded palette gm rules minP maxP sx sy sz cx cz i pid = .ok none ∧
      convertCellUnbounded palette gm rules sx2 sz2 cx cz i pid = .ok none) := by
  refine ⟨firstMatch_some_iff gm, firstMatch_none_iff gm, ?_, ?_⟩
  · intro w minP maxP rules out cx cz arr i pid name v hok hcx hcz harr hi hin hp hair hfm
    rcases convert_bounded_ok w minP maxP rules gm out hok with ⟨hch, rfl⟩ | hfold
    · rw [hch] at harr
      cases harr
    · unfold convertBoundedFold at hfold
      refine ((chunkRangeFold_mem _ _ _ _ _ _ out hfold _).mpr
        ⟨cx, cz, arr, i, pid, hcx, hcz, harr, hi, ?_⟩)
      rw [convertCellBounded_eval _ gm rules minP maxP _ _ _ cx cz i pid name hin hp hair, hfm]
      rfl
  · intro palette rules minP maxP sx sy sz sx2 sz2 cx cz i pid name hp hair hfm
    constructor
    · cases hin : isInsideRegion minP maxP (cellGlobalX cx i) (cellGlobalY i) (cellGlobalZ cz i) with
      | false =>
        simp only [convertCellBounded]
        rw [if_neg (by simp [hin])]
      | true =>
        rw [convertCellBounded_eval palette gm rules minP maxP sx sy sz cx cz i pid name hin hp
          hair, hfm]
        rfl
    · rw [convertCellUnbounded_eval palette gm rules sx2 sz2 cx cz i pid name hp hair, hfm]
      rfl

/-- C4 witness: a concrete visited matching cell whose first-match id lands in
the output, with every hypothesis discharged by computation. -/
theorem C4_witness :
    (convert stoneWorld (some ⟨0, 0, 0⟩) (some ⟨0, 0, 0⟩) stoneRules gmEq =
        .ok [((0, 0, 0), 5)] ∧
      (0 : Int) ∈ intRange (Int.fdiv 0 16) (Int.fdiv 0 16) ∧
      alookup ⟨0, 0⟩ stoneWorld.chunks = some [0] ∧
      ((0 : Nat), (0 : Nat)) ∈ ([0] : List Nat).enum ∧
      isInsideRegion ⟨0, 0, 0⟩ ⟨0, 0, 0⟩ (cellGlobalX 0 0) (cellGlobalY 0)
        (cellGlobalZ 0 0) = true ∧
      stoneWorld.palette.get? 0 = some "minecraft:stone" ∧
      firstMatch gmEq stoneRules "minecraft:stone" = some 5) ∧
    ((cellGlobalX 0 0 - (0 + Int.tdiv (0 - 0) 2), cellGlobalY 0 - 0,
        cellGlobalZ 0 0 - (0 + Int.tdiv (0 - 0) 2)), 5) ∈
      ([((0, 0, 0), 5)] : List Entry) :=
  ⟨⟨by decide, by decide, by decide, by decide, by decide, by decide, by decide⟩,
    (C4_rule_resolution gmEq).2.2.1 stoneWorld ⟨0, 0, 0⟩ ⟨0, 0, 0⟩ stoneRules
      [((0, 0, 0), 5)] 0 0 [0] 0 0 "minecraft:stone" 5 (by decide) (by decide) (by decide)
      (by decide) (by decide) (by decide) (by decide) (by decide) (by decide)⟩

/-- C7: in unbounded mode every output key's `dy` equals the raw `global_y`
(no vertical offset subtracted), while `sub_x` and `sub_z` are the same
truncating-centered `min + (max - min) / 2` offsets as bounded mode, computed
over the derived per-axis chunk extent and subtracted from `global_x` and
`global_z`; bounded mode, by contrast, has `dy = global_y - min_pos.y`. -/
theorem C7_unbounded_offsets :
    (∀ (w : McWorld) (mp Mp : Option Vec3) (rules : List (String × Nat))
        (gm : String → String → Bool) (out : List Entry) (dx dy dz : Int) (v : Nat),
      mp = none ∨ Mp = none →
      convert w mp Mp rules gm = .ok out → ((dx, dy, dz), v) ∈ out →
      ∃ mnx mnz mxx mxz cx cz arr i pid,
        minInt? (w.chunks.map fun en => en.1.x) = some mnx ∧
        minInt? (w.chunks.map fun en => en.1.z) = some mnz ∧
        maxInt? (w.chunks.map fun en => en.1.x) = some mxx ∧
        maxInt? (w.chunks.map fun en => en.1.z) = some mxz ∧
        alookup ⟨cx, cz⟩ w.chunks = some arr ∧ (i, pid) ∈ arr.enum ∧
        dy = cellGlobalY i ∧
        dx = cellGlobalX cx i - (mnx + Int.tdiv (mxx - mnx) 2) ∧
        dz = cellGlobalZ cz i - (mnz + Int.tdiv (mxz - mnz) 2)) ∧
    (∀ (w : McWorld) (minP maxP : Vec3) (rules : List (String × Nat))
        (gm : String → String → Bool) (out : List Entry) (dx dy dz : Int) (v : Nat),
      convert w (some minP) (some maxP) rules gm = .ok out → ((dx, dy, dz), v) ∈ out →
      ∃ cx cz arr i pid,
        alookup ⟨cx, cz⟩ w.chunks = some arr ∧ (i, pid) ∈ arr.enum ∧
        dy = cellGlobalY i - minP.y ∧
        dx = cellGlobalX cx i - (minP.x + Int.tdiv (maxP.x - minP.x) 2) ∧
        dz = cellGlobalZ cz i - (minP.z + Int.tdiv (maxP.z - minP.z) 2)) := by
  constructor
  · intro w mp Mp rules gm out dx dy dz v hmode hok hmem
    rcases convert_unbounded_mem w mp Mp rules gm out _ hmode hok hmem with
      ⟨mnx, mnz, mxx, mxz, cx, cz, arr, i, pid, name, v2, h1, h2, h3, h4, hcx, hcz, harr,
        hi, hp, hair, hfm, hkey⟩
    simp only [Prod.mk.injEq] at hkey
    obtain ⟨⟨hdx, hdy, hdz⟩, hv⟩ := hkey
    exact ⟨mnx, mnz, mxx, mxz, cx, cz, arr, i, pid, h1, h2, h3, h4, harr, hi, hdy, hdx, hdz⟩
  · intro w minP maxP rules gm out dx dy dz v hok hmem
    rcases convert_bounded_mem w minP maxP rules gm out _ hok hmem with
      ⟨cx, cz, arr, i, pid, name, v2, hcx, hcz, harr, hi, hin, hp, hair, hfm, hkey⟩
    simp only [Prod.mk.injEq] at hkey
    obtain ⟨⟨hdx, hdy, hdz⟩, hv⟩ := hkey
    exact ⟨cx, cz, arr, i, pid, harr, hi, hdy, hdx, hdz⟩

/-- C7 witness: a concrete unbounded call, hypotheses discharged by
computation. -/
theorem C7_witness :
    ((none : Option Vec3) = none ∨ (none : Option Vec3) = none) ∧
    convert stoneWorld none none stoneRules gmEq = .ok [((0, 0, 0), 5)] ∧
    (∃ mnx mnz mxx mxz cx cz arr i pid,
      minInt? (stoneWorld.chunks.map fun en => en.1.x) = some mnx ∧
      minInt? (stoneWorld.chunks.map fun en => en.1.z) = some mnz ∧
      maxInt? (stoneWorld.chunks.map fun en => en.1.x) = some mxx ∧
      maxInt? (stoneWorld.chunks.map fun en => en.1.z) = some mxz ∧
      alookup ⟨cx, cz⟩ stoneWorld.chunks = some arr ∧ (i, pid) ∈ arr.enum ∧
      (0 : Int) = cellGlobalY i ∧
      (0 : Int) = cellGlobalX cx i - (mnx + Int.tdiv (mxx - mnx) 2) ∧
      (0 : Int) = cellGlobalZ cz i - (mnz + Int.tdiv (mxz - mnz) 2)) :=
  ⟨Or.inl rfl, by decide,
    C7_unbounded_offsets.1 stoneWorld none none stoneRules gmEq [((0, 0, 0), 5)] 0 0 0 5
      (Or.inl rfl) (by decide) (by decide)⟩

/-- A binding found by `alookup` is a member of the association list. -/
theorem alookup_mem (c : Vec2) (l : List (Vec2 × List Nat)) (arr : List Nat)
    (h : alookup c l = some arr) : (c, arr) ∈ l := by
  induction l with
  | nil => cases h
  | cons e rest ih =>
    obtain ⟨k2, v⟩ := e
    unfold alookup at h
    by_cases hk : c = k2
    · rw [if_pos hk] at h
      injection h with h
      rw [hk, h]
      exact List.mem_cons_self _ _
    · rw [if_neg hk] at h
      exact List.mem_cons_of_mem _ (ih h)

/-- C10: `convert` resolves visited cells' palette ids with an unchecked
lookup — an id not strictly below the palette length panics the per-cell body
— and a world whose chunk store is non-empty (holding a non-empty array) but
whose palette is empty makes the no-bounds `convert` call panic rather than
return a result or an error. -/
theorem C10_unchecked_palette_lookup :
    (∀ (palette : List String) (gm : String → String → Bool)
        (rules : List (String × Nat)) (sx sz cx cz : Int) (i pid : Nat),
      palette.length ≤ pid →
      convertCellUnbounded palette gm rules sx sz cx cz i pid = .error ()) ∧
    (∀ (w : McWorld) (rules : List (String × Nat)) (gm : String → String → Bool)
        (c : Vec2) (arr : List Nat),
      alookup c w.chunks = some arr → arr ≠ [] → w.palette = [] →
      convert w none none rules gm = .panicked) := by
  constructor
  · intro palette gm rules sx sz cx cz i pid hlen
    exact convertCellUnbounded_panic palette gm rules sx sz cx cz i pid
      (List.get?_eq_none.mpr hlen)
  · intro w rules gm c arr harr hne hpal
    cases hch : w.chunks with
    | nil =>
      rw [hch] at harr
      cases harr
    | cons a rest =>
      obtain ⟨mnx, h1⟩ : ∃ m, minInt? ((a :: rest).map fun e => e.1.x) = some m := by
        simp only [List.map_cons]
        exact minInt?_cons _ _
      obtain ⟨mnz, h2⟩ : ∃ m, minInt? ((a :: rest).map fun e => e.1.z) = some m := by
        simp only [List.map_cons]
        exact minInt?_cons _ _
      obtain ⟨mxx, h3⟩ : ∃ m, maxInt? ((a :: rest).map fun e => e.1.x) = some m := by
        simp only [List.map_cons]
        exact maxInt?_cons _ _
      obtain ⟨mxz, h4⟩ : ∃ m, maxInt? ((a :: rest).map fun e => e.1.z) = some m := by
        simp only [List.map_cons]
        exact maxInt?_cons _ _
      rw [convert_unbounded_eq w none none rules gm (Or.inl rfl) a rest hch mnx mnz mxx mxz
        h1 h2 h3 h4]
      have hcmem : (c, arr) ∈ w.chunks := alookup_mem c w.chunks arr harr
      have hxmem : c.x ∈ (a :: rest).map fun e => e.1.x := by
        rw [← hch]
        exact List.mem_map.mpr ⟨(c, arr), hcmem, rfl⟩
      have hzmem : c.z ∈ (a :: rest).map fun e => e.1.z := by
        rw [← hch]
        exact List.mem_map.mpr ⟨(c, arr), hcmem, rfl⟩
      obtain ⟨a2, t2⟩ : ∃ a2 t2, arr = a2 :: t2 := by
        cases arr with
        | nil => exact absurd rfl hne
        | cons a2 t2 => exact ⟨a2, t2, rfl⟩
      obtain ⟨t2, rfl⟩ := t2
      have hforce : convertUnboundedFold w rules gm mnx mxx mnz mxz = .error () := by
        unfold convertUnboundedFold
        refine chunkRangeFold_force w _ mnx mxx mnz mxz c.x c.z (a2 :: t2) 0 a2
          ((mem_intRange mnx mxx c.x).mpr ⟨minInt?_le _ mnx c.x h1 hxmem,
            maxInt?_ge _ mxx c.x h3 hxmem⟩)
          ((mem_intRange mnz mxz c.z).mpr ⟨minInt?_le _ mnz c.z h2 hzmem,
            maxInt?_ge _ mxz c.z h4 hzmem⟩)
          harr (by simp [List.enum_cons]) ?_
        exact convertCellUnbounded_panic w.palette gm rules _ _ c.x c.z 0 a2
          (by rw [hpal]; rfl)
      rw [hforce]

/-- C10 witness: a concrete non-empty world with an empty palette on which the
no-bounds `convert` call panics. -/
theorem C10_witness :
    alookup ⟨0, 0⟩ emptyPaletteWorld.chunks = some [0] ∧ ([0] : List Nat) ≠ [] ∧
      emptyPaletteWorld.palette = [] ∧
      convert emptyPaletteWorld none none stoneRules gmEq = .panicked :=
  ⟨by decide, by decide, rfl,
    C10_unchecked_palette_lookup.2 emptyPaletteWorld stoneRules gmEq ⟨0, 0⟩ [0]
      (by decide) (by decide) rfl⟩

/-! ### Palette and ingestion lemmas -/

/-- A palette hit returns the stored id and leaves the world unchanged. -/
theorem getOrCreate_hit (w : McWorld) (n : String) (i : Nat)
    (hs : slookup n w.palette_index = some i) : getOrCreate w n = (w, i) := by
  unfold getOrCreate
  rw [hs]

/-- A palette miss pushes the name and binds it to the truncated length. -/
theorem getOrCreate_fresh (w : McWorld) (n : String)
    (hs : slookup n w.palette_index = none) :
    getOrCreate w n =
      ({ w with palette := w.palette ++ [n],
                palette_index := (n, w.palette.length % 65536) :: w.palette_index },
       w.palette.length % 65536) := by
  unfold getOrCreate
  rw [hs]

/-- `get_or_create` never touches the chunk store. -/
theorem getOrCreate_chunks (w : McWorld) (n : String) :
    (getOrCreate w n).1.chunks = w.chunks := by
  unfold getOrCreate
  cases slookup n w.palette_index <;> rfl

/-- `get_or_create` acts on the palette fields independently of the chunk
store. -/
theorem getOrCreate_chunks_congr (w : McWorld) (cs : List (Vec2 × List Nat)) (n : String) :
    getOrCreate { w with chunks := cs } n =
      ({ (getOrCreate w n).1 with chunks := cs }, (getOrCreate w n).2) := by
  unfold getOrCreate
  dsimp only
  cases slookup n w.palette_index <;> rfl

/-- `get_or_create` preserves every existing binding. -/
theorem getOrCreate_binding (w : McWorld) (n n2 : String) (i : Nat)
    (h : slookup n2 w.palette_index = some i) :
    slookup n2 (getOrCreate w n).1.palette_index = some i := by
  unfold getOrCreate
  cases hs : slookup n w.palette_index with
  | some j => exact h
  | none =>
    dsimp only
    unfold slookup
    by_cases hne : n2 = n
    · rw [hne] at h
      rw [h] at hs
      cases hs
    · rw [if_neg hne]
      exact h

/-- `get_or_create` preserves the palette invariant. -/
theorem getOrCreate_PaletteOK (w : McWorld) (n : String) (hw : PaletteOK w) :
    PaletteOK (getOrCreate w n).1 := by
  obtain ⟨hnd, hidx, hmem⟩ := hw
  unfold getOrCreate
  cases hs : slookup n w.palette_index with
  | some j => exact ⟨hnd, hidx, hmem⟩
  | none =>
    dsimp only
    have hnotmem : n ∉ w.palette := by
      intro hin
      rcases List.get?_of_mem hin with ⟨k, hk⟩
      have hsk := hidx k n hk
      rw [hsk] at hs
      cases hs
    refine ⟨?_, ?_, ?_⟩
    · rw [List.nodup_append]
      refine ⟨hnd, List.nodup_singleton n, ?_⟩
      intro a ha hb
      rw [List.mem_singleton.mp hb] at ha
      exact hnotmem ha
    · intro k m hk
      by_cases hlt : k < w.palette.length
      · rw [List.get?_append hlt] at hk
        have hkm := hidx k m hk
        unfold slookup
        by_cases heq : m = n
        · exfalso
          rw [heq] at hk
          exact hnotmem (List.get?_mem hk)
        · rw [if_neg heq]
          exact hkm
      · have hk2 : k = w.palette.length := by
          by_contra hne2
          have hge : (w.palette ++ [n]).length ≤ k := by
            rw [List.length_append, List.length_singleton]
            omega
          rw [List.get?_eq_none.mpr hge] at hk
          cases hk
        subst hk2
        rw [List.get?_concat_length] at hk
        injection hk with hk
        subst hk
        unfold slookup
        rw [if_pos rfl]
    · intro m i hm
      unfold slookup at hm
      by_cases heq : m = n
      · rw [heq]
        exact List.mem_append.mpr (Or.inr (List.mem_singleton.mpr rfl))
      · rw [if_neg heq] at hm
        exact List.mem_append.mpr (Or.inl (hmem m i hm))

/-- A cell-ingestion step either skips the cell or looks up / creates one
name. -/
theorem ingestStep_cases (chunk : DecodedChunk) (acc : McWorld × List Nat) (i : Nat) :
    ingestStep chunk acc i = acc ∨
      ∃ name, ingestStep chunk acc i =
        ((getOrCreate acc.1 name).1, acc.2.set i (getOrCreate acc.1 name).2) := by
  unfold ingestStep
  dsimp only
  cases chunk.block (i % (16 * HEIGHT) % 16) (i % (16 * HEIGHT) / 16) (i / (16 * HEIGHT)) with
  | none => exact Or.inl rfl
  | some name => exact Or.inr ⟨name, rfl⟩

/-- A cell-ingestion step acts independently of the chunk store. -/
theorem ingestStep_congr (chunk : DecodedChunk) (w : McWorld)
    (cs : List (Vec2 × List Nat)) (bd : List Nat) (i : Nat) :
    ingestStep chunk ({ w with chunks := cs }, bd) i =
      ({ (ingestStep chunk (w, bd) i).1 with chunks := cs },
        (ingestStep chunk (w, bd) i).2) := by
  unfold ingestStep
  dsimp only
  cases chunk.block (i % (16 * HEIGHT) % 16) (i % (16 * HEIGHT) / 16) (i / (16 * HEIGHT)) with
  | none => rfl
  | some name =>
    dsimp only
    rw [getOrCreate_chunks_congr]

/-- Cell ingestion over any index list acts independently of the chunk store. -/
theorem ingestFold_congr (chunk : DecodedChunk) :
    ∀ (l : List Nat) (w : McWorld) (cs : List (Vec2 × List Nat)) (bd : List Nat),
      l.foldl (ingestStep chunk) ({ w with chunks := cs }, bd) =
        ({ (l.foldl (ingestStep chunk) (w, bd)).1 with chunks := cs },
          (l.foldl (ingestStep chunk) (w, bd)).2) := by
  intro l
  induction l with
  | nil => intro w cs bd; rfl
  | cons i rest ih =>
    intro w cs bd
    rw [List.foldl_cons, List.foldl_cons, ingestStep_congr]
    exact ih _ _ _

/-- Chunk ingestion acts independently of the chunk store. -/
theorem ingestCells_congr (w : McWorld) (cs : List (Vec2 × List Nat))
    (chunk : DecodedChunk) :
    ingestCells { w with chunks := cs } chunk =
      ({ (ingestCells w chunk).1 with chunks := cs }, (ingestCells w chunk).2) := by
  unfold ingestCells
  exact ingestFold_congr chunk _ w cs _

/-- Chunk ingestion never touches the chunk store. -/
theorem ingestCells_chunks (w : McWorld) (chunk : DecodedChunk) :
    (ingestCells w chunk).1.chunks = w.chunks := by
  unfold ingestCells
  refine foldl_inv (ingestStep chunk) (fun acc => acc.1.chunks = w.chunks) _ _ ?_ rfl
  intro t b hb ht
  rcases ingestStep_cases chunk t b with heq | ⟨name, heq⟩
  · rw [heq]
    exact ht
  · rw [heq]
    dsimp only
    rw [getOrCreate_chunks]
    exact ht

/-- Chunk ingestion preserves the palette invariant. -/
theorem ingestCells_PaletteOK (w : McWorld) (chunk : DecodedChunk) (hw : PaletteOK w) :
    PaletteOK (ingestCells w chunk).1 := by
  unfold ingestCells
  refine foldl_inv (ingestStep chunk) (fun acc => PaletteOK acc.1) _ _ ?_ hw
  intro t b hb ht
  rcases ingestStep_cases chunk t b with heq | ⟨name, heq⟩
  · rw [heq]
    exact ht
  · rw [heq]
    exact getOrCreate_PaletteOK t.1 name ht

/-- Chunk ingestion preserves every existing palette binding. -/
theorem ingestCells_binding (w : McWorld) (chunk : DecodedChunk) (n : String) (i : Nat)
    (h : slookup n w.palette_index = some i) :
    slookup n (ingestCells w chunk).1.palette_index = some i := by
  unfold ingestCells
  refine foldl_inv (ingestStep chunk)
    (fun acc => slookup n acc.1.palette_index = some i) _ _ ?_ h
  intro t b hb ht
  rcases ingestStep_cases chunk t b with heq | ⟨name, heq⟩
  · rw [heq]
    exact ht
  · rw [heq]
    exact getOrCreate_binding t.1 name n i ht

/-! ### Frame lemmas for `read_region` -/

/-- Looking up a key different from the freshly inserted one skips it. -/
theorem alookup_cons_ne (c k : Vec2) (v : List Nat) (l : List (Vec2 × List Nat))
    (h : c ≠ k) : alookup c ((k, v) :: l) = alookup c l := by
  show (if c = k then some v else alookup c l) = alookup c l
  rw [if_neg h]

/-- The world of the finished traversal is the world of its final state. -/
theorem resWorld_finishRR (st : RRState) : resWorld (finishRR st) = stWorld st := by
  cases st <;> rfl

/-- A slot iteration never touches the entry of a chunk coordinate that is
outside the supplied bounds on some axis. -/
theorem readRegionStep_frame (rp : Vec2) (minc maxc : Option Vec2)
    (slots : Nat → Nat → SlotResult) (c : Vec2)
    (hout : (∃ m, minc = some m ∧ c.x < m.x) ∨ (∃ m, maxc = some m ∧ m.x < c.x) ∨
            (∃ m, minc = some m ∧ c.z < m.z) ∨ (∃ m, maxc = some m ∧ m.z < c.z))
    (st : RRState) (xz : Nat × Nat) :
    alookup c (stWorld (readRegionStep rp minc maxc slots st xz)).chunks =
      alookup c (stWorld st).chunks := by
  cases st with
  | fatal m w => rfl
  | panicked w => rfl
  | running w =>
    unfold readRegionStep
    dsimp only
    by_cases h1 : ((isSomeAnd minc fun pos => decide (rp.x * 32 + (xz.1 : Int) < pos.x)) ||
        (isSomeAnd maxc fun pos => decide (rp.x * 32 + (xz.1 : Int) > pos.x))) = true
    · rw [if_pos h1]
    · rw [if_neg h1]
      by_cases h2 : ((isSomeAnd minc fun pos => decide (rp.z * 32 + (xz.2 : Int) < pos.z)) ||
          (isSomeAnd maxc fun pos => decide (rp.z * 32 + (xz.2 : Int) > pos.z))) = true
      · rw [if_pos h2]
      · rw [if_neg h2]
        cases hs : slots xz.1 xz.2 with
        | readErr m => rfl
        | absentChunk => rfl
        | badPayload m => rfl
        | okChunk chunk =>
          dsimp only [stWorld]
          have hne : c ≠ (⟨rp.x * 32 + (xz.1 : Int), rp.z * 32 + (xz.2 : Int)⟩ : Vec2) := by
            intro hceq
            have hcx := congrArg Vec2.x hceq
            have hcz := congrArg Vec2.z hceq
            dsimp only at hcx hcz
            simp only [Bool.or_eq_true, not_or] at h1 h2
            rcases hout with ⟨m, rfl, hlt⟩ | ⟨m, rfl, hlt⟩ | ⟨m, rfl, hlt⟩ | ⟨m, rfl, hlt⟩
            · have hb := h1.1
              simp only [isSomeAnd, decide_eq_true_eq] at hb
              omega
            · have hb := h1.2
              simp only [isSomeAnd, decide_eq_true_eq] at hb
              omega
            · have hb := h2.1
              simp only [isSomeAnd, decide_eq_true_eq] at hb
              omega
            · have hb := h2.2
              simp only [isSomeAnd, decide_eq_true_eq] at hb
              omega
          rw [alookup_cons_ne _ _ _ _ hne, ingestCells_chunks]

/-- C5: a chunk coordinate outside the supplied bounds on the x axis alone,
the z axis alone, or both (each supplied bound checked independently per
axis, inclusive) is neither created nor modified by `read_region`, whatever
the call's outcome. -/
theorem C5_bound_filtering (w : McWorld) (rp : Vec2) (minc maxc : Option Vec2)
    (reg : RegionParse) (c : Vec2)
    (hout : (∃ m, minc = some m ∧ c.x < m.x) ∨ (∃ m, maxc = some m ∧ m.x < c.x) ∨
            (∃ m, minc = some m ∧ c.z < m.z) ∨ (∃ m, maxc = some m ∧ m.z < c.z)) :
    alookup c (resWorld (read_region w rp minc maxc reg)).chunks =
      alookup c w.chunks := by
  cases reg with
  | parseErr msg => rfl
  | parsed slots =>
    unfold read_region
    have hfold := foldl_inv (readRegionStep rp minc maxc slots)
      (fun st => alookup c (stWorld st).chunks = alookup c w.chunks) slotPairs (.running w)
      (fun t b hb ht => (readRegionStep_frame rp minc maxc slots c hout t b).trans ht)
      rfl
    rw [resWorld_finishRR]
    exact hfold

/-- C5 witness: a concrete out-of-bounds chunk coordinate left untouched. -/
theorem C5_witness :
    ((∃ m, (some (⟨5, 0⟩ : Vec2) : Option Vec2) = some m ∧ (⟨0, 0⟩ : Vec2).x < m.x) ∨
      (∃ m, (none : Option Vec2) = some m ∧ m.x < (⟨0, 0⟩ : Vec2).x) ∨
      (∃ m, (some (⟨5, 0⟩ : Vec2) : Option Vec2) = some m ∧ (⟨0, 0⟩ : Vec2).z < m.z) ∨
      (∃ m, (none : Option Vec2) = some m ∧ m.z < (⟨0, 0⟩ : Vec2).z)) ∧
    alookup ⟨0, 0⟩ (resWorld (read_region stoneWorld ⟨0, 0⟩ (some ⟨5, 0⟩) none
        (.parsed (singleSlots stoneChunk)))).chunks =
      alookup ⟨0, 0⟩ stoneWorld.chunks :=
  ⟨Or.inl ⟨⟨5, 0⟩, rfl, by decide⟩,
    C5_bound_filtering stoneWorld ⟨0, 0⟩ (some ⟨5, 0⟩) none
      (.parsed (singleSlots stoneChunk)) ⟨0, 0⟩ (Or.inl ⟨⟨5, 0⟩, rfl, by decide⟩)⟩

set_option maxRecDepth 40000 in
/-- C6: a chunk slot whose payload does not exist is skipped silently — a
region whose 32×32 slots are all unallocated reads back `Ok` with the world
unchanged — while a payload that exists but fails structural decode aborts
the entire `read_region` call with a terminal error carrying the decode
message, even when every later slot holds a decodable chunk (none of which is
then ingested): the two cases are deliberately asymmetric. -/
theorem C6_missing_vs_malformed (w : McWorld) (rp : Vec2) (msg : String) :
    read_region w rp none none (.parsed fun _ _ => .absentChunk) = .ok w ∧
    read_region w rp none none (.parsed fun _ _ => .badPayload msg) = .err msg w ∧
    read_region w rp none none
        (.parsed fun x z =>
          if x = 0 ∧ z = 0 then .badPayload msg else .okChunk stoneChunk) =
      .err msg w :=
  ⟨rfl, rfl, rfl⟩

/-! ### The chunk store never feeds back into `read_region` -/

/-- Chunk ingestion from a canonical empty chunk store determines ingestion
from any chunk store. -/
theorem ingestCells_congr0 (pi : List (String × Nat)) (pal : List String)
    (cs : List (Vec2 × List Nat)) (chunk : DecodedChunk) :
    ingestCells ⟨pi, pal, cs⟩ chunk =
      ({ (ingestCells ⟨pi, pal, []⟩ chunk).1 with chunks := cs },
        (ingestCells ⟨pi, pal, []⟩ chunk).2) :=
  ingestCells_congr ⟨pi, pal, []⟩ cs chunk

/-- A slot iteration keeps two lockstep states in lockstep. -/
theorem readRegionStep_sameMod (rp : Vec2) (minc maxc : Option Vec2)
    (slots : Nat → Nat → SlotResult) (cs : List (Vec2 × List Nat))
    (st1 st0 : RRState) (xz : Nat × Nat) (h : SameModChunks cs st1 st0) :
    SameModChunks cs (readRegionStep rp minc maxc slots st1 xz)
      (readRegionStep rp minc maxc slots st0 xz) := by
  cases st1 with
  | fatal m1 w1 =>
    cases st0 with
    | fatal m0 w0 => exact h
    | running w0 => exact (h : False).elim
    | panicked w0 => exact (h : False).elim
  | panicked w1 =>
    cases st0 with
    | panicked w0 => exact h
    | running w0 => exact (h : False).elim
    | fatal m0 w0 => exact (h : False).elim
  | running w1 =>
    cases st0 with
    | fatal m0 w0 => exact (h : False).elim
    | panicked w0 => exact (h : False).elim
    | running w0 =>
      obtain ⟨pi0, pal0, cs0⟩ := w0
      have h2 : w1 = ⟨pi0, pal0, cs0 ++ cs⟩ := h
      subst h2
      unfold readRegionStep
      dsimp only
      by_cases h1 : ((isSomeAnd minc fun pos => decide (rp.x * 32 + (xz.1 : Int) < pos.x)) ||
          (isSomeAnd maxc fun pos => decide (rp.x * 32 + (xz.1 : Int) > pos.x))) = true
      · rw [if_pos h1, if_pos h1]
        exact rfl
      · rw [if_neg h1, if_neg h1]
        by_cases h2 : ((isSomeAnd minc fun pos => decide (rp.z * 32 + (xz.2 : Int) < pos.z)) ||
            (isSomeAnd maxc fun pos => decide (rp.z * 32 + (xz.2 : Int) > pos.z))) = true
        · rw [if_pos h2, if_pos h2]
          exact rfl
        · rw [if_neg h2, if_neg h2]
          cases hs : slots xz.1 xz.2 with
          | readErr m => exact rfl
          | absentChunk => exact rfl
          | badPayload m => exact ⟨rfl, rfl⟩
          | okChunk chunk =>
            dsimp only
            rw [ingestCells_congr0 pi0 pal0 (cs0 ++ cs) chunk,
              ingestCells_congr0 pi0 pal0 cs0 chunk]
            generalize ingestCells ⟨pi0, pal0, []⟩ chunk = I
            exact rfl

/-- A whole slot traversal keeps two lockstep states in lockstep. -/
theorem slotFold_sameMod (rp : Vec2) (minc maxc : Option Vec2)
    (slots : Nat → Nat → SlotResult) (cs : List (Vec2 × List Nat)) :
    ∀ (L : List (Nat × Nat)) (st1 st0 : RRState), SameModChunks cs st1 st0 →
      SameModChunks cs (L.foldl (readRegionStep rp minc maxc slots) st1)
        (L.foldl (readRegionStep rp minc maxc slots) st0) := by
  intro L
  induction L with
  | nil => intro st1 st0 h; exact h
  | cons b rest ih =>
    intro st1 st0 h
    exact ih _ _ (readRegionStep_sameMod rp minc maxc slots cs st1 st0 b h)

/-- Lockstep states have the same world up to the appended chunk suffix. -/
theorem sameMod_chunks (cs : List (Vec2 × List Nat)) (s1 s0 : RRState)
    (h : SameModChunks cs s1 s0) :
    (stWorld s1).chunks = (stWorld s0).chunks ++ cs := by
  cases s1 with
  | running w1 =>
    cases s0 with
    | running w0 =>
      rw [show w1 = { w0 with chunks := w0.chunks ++ cs } from h]
      rfl
    | fatal m0 w0 => exact (h : False).elim
    | panicked w0 => exact (h : False).elim
  | fatal m1 w1 =>
    cases s0 with
    | fatal m0 w0 =>
      rw [show w1 = { w0 with chunks := w0.chunks ++ cs } from h.2]
      rfl
    | running w0 => exact (h : False).elim
    | panicked w0 => exact (h : False).elim
  | panicked w1 =>
    cases s0 with
    | panicked w0 =>
      rw [show w1 = { w0 with chunks := w0.chunks ++ cs } from h]
      rfl
    | running w0 => exact (h : False).elim
    | fatal m0 w0 => exact (h : False).elim

/-- The chunk store a `read_region` call starts from is never read: the final
store is the one computed from an empty store, with the initial entries
appended after it (so lookups prefer the fresh entries). -/
theorem read_region_factor (pi : List (String × Nat)) (pal : List String)
    (cs : List (Vec2 × List Nat)) (rp : Vec2) (minc maxc : Option Vec2)
    (reg : RegionParse) :
    (resWorld (read_region ⟨pi, pal, cs⟩ rp minc maxc reg)).chunks =
      (resWorld (read_region ⟨pi, pal, []⟩ rp minc maxc reg)).chunks ++ cs := by
  cases reg with
  | parseErr msg => rfl
  | parsed slots =>
    unfold read_region
    rw [resWorld_finishRR, resWorld_finishRR]
    generalize slotPairs = L
    exact sameMod_chunks cs _ _
      (slotFold_sameMod rp minc maxc slots cs L
        (.running ⟨pi, pal, cs⟩) (.running ⟨pi, pal, []⟩) rfl)

/-- Lookup distributes over an appended store, preferring the front part. -/
theorem alookup_append (c : Vec2) (A B : List (Vec2 × List Nat)) :
    alookup c (A ++ B) = match alookup c A with
      | some v => some v
      | none => alookup c B := by
  induction A with
  | nil => rfl
  | cons e rest ih =>
    obtain ⟨k, v⟩ := e
    by_cases h : c = k <;> simp [alookup, h, ih]

/-- C8: a `read_region` call never reads the prior chunk store — the entry a
call stores for a re-ingested coordinate is exactly the entry the same call
computes over an empty store, whatever array was stored before (full
replacement, no merge of old cell values) — and entries are only ever added
or replaced, never removed. -/
theorem C8_overwrite_no_merge :
    (∀ (pi : List (String × Nat)) (pal : List String) (cs : List (Vec2 × List Nat))
        (rp : Vec2) (minc maxc : Option Vec2) (reg : RegionParse) (c : Vec2)
        (d : List Nat),
      alookup c (resWorld (read_region ⟨pi, pal, []⟩ rp minc maxc reg)).chunks = some d →
      alookup c (resWorld (read_region ⟨pi, pal, cs⟩ rp minc maxc reg)).chunks = some d) ∧
    (∀ (w : McWorld) (rp : Vec2) (minc maxc : Option Vec2) (reg : RegionParse) (c : Vec2),
      alookup c w.chunks ≠ none →
      alookup c (resWorld (read_region w rp minc maxc reg)).chunks ≠ none) := by
  constructor
  · intro pi pal cs rp minc maxc reg c d hd
    rw [read_region_factor pi pal cs rp minc maxc reg, alookup_append, hd]
  · intro w rp minc maxc reg c hne
    obtain ⟨pi, pal, cs⟩ := w
    rw [read_region_factor pi pal cs rp minc maxc reg, alookup_append]
    cases hfresh : alookup c (resWorld (read_region ⟨pi, pal, []⟩ rp minc maxc reg)).chunks with
    | some d =>
      intro hcon
      cases hcon
    | none => exact hne

/-- Over a slot list that is unallocated everywhere, the traversal is the
identity. -/
theorem foldl_absent (rp : Vec2) (slots : Nat → Nat → SlotResult) :
    ∀ (L : List (Nat × Nat)) (st : RRState), (∀ p, p ∈ L → slots p.1 p.2 = .absentChunk) →
      L.foldl (readRegionStep rp none none slots) st = st := by
  intro L
  induction L with
  | nil => intro st h; rfl
  | cons b rest ih =>
    intro st h
    rw [List.foldl_cons]
    have hstep : readRegionStep rp none none slots st b = st := by
      cases st with
      | fatal m w => rfl
      | panicked w => rfl
      | running w =>
        unfold readRegionStep
        simp [isSomeAnd, h b (List.mem_cons_self b rest)]
    rw [hstep]
    exact ih st (fun p hp => h p (List.mem_cons_of_mem b hp))

set_option maxRecDepth 40000 in
/-- A region holding one decodable chunk in slot `(0, 0)` of region `(0, 0)`
and nothing else ingests exactly that chunk. -/
theorem read_region_single (w : McWorld) (c : DecodedChunk) :
    read_region w ⟨0, 0⟩ none none (.parsed (singleSlots c)) =
      .ok { (ingestCells w c).1 with
            chunks := (⟨0, 0⟩, (ingestCells w c).2) :: (ingestCells w c).1.chunks } := by
  unfold read_region
  dsimp only
  have hsplit : slotPairs = (0, 0) :: slotPairs.tail := rfl
  rw [hsplit, List.foldl_cons]
  have hstep : readRegionStep ⟨0, 0⟩ none none (singleSlots c) (.running w) (0, 0) =
      .running { (ingestCells w c).1 with
        chunks := (⟨0, 0⟩, (ingestCells w c).2) :: (ingestCells w c).1.chunks } := rfl
  rw [hstep]
  have habsent : ∀ p, p ∈ slotPairs.tail → singleSlots c p.1 p.2 = .absentChunk := by
    intro p hp
    have hne : p ≠ (0, 0) := by
      intro hpe
      rw [hpe] at hp
      exact absurd hp (by decide)
    unfold singleSlots
    rw [if_neg fun hand => hne (Prod.ext hand.1 hand.2)]
  rw [foldl_absent ⟨0, 0⟩ (singleSlots c) slotPairs.tail _ habsent]
  rfl

/-- Ingesting a chunk with no resolvable cell leaves the world unchanged and
produces the all-default array. -/
theorem ingestCells_noneChunk (w : McWorld) :
    ingestCells w noneChunk = (w, List.replicate (16 * HEIGHT * 16) 0) := by
  unfold ingestCells
  generalize List.range (16 * HEIGHT * 16) = L
  induction L generalizing w with
  | nil => rfl
  | cons i rest ih => exact ih w

/-- C8 witness: a fresh run stores the chunk at `(0, 0)`, and the same call on
a store already holding an entry at `(0, 0)` yields the identical fresh
array. -/
theorem C8_witness :
    alookup ⟨0, 0⟩ (resWorld (read_region ⟨[], [], []⟩ ⟨0, 0⟩ none none
        (.parsed (singleSlots noneChunk)))).chunks =
      some (List.replicate (16 * HEIGHT * 16) 0) ∧
    alookup ⟨0, 0⟩ (resWorld (read_region ⟨[], [], [(⟨0, 0⟩, [7])]⟩ ⟨0, 0⟩ none none
        (.parsed (singleSlots noneChunk)))).chunks =
      some (List.replicate (16 * HEIGHT * 16) 0) := by
  have h : alookup ⟨0, 0⟩ (resWorld (read_region ⟨[], [], []⟩ ⟨0, 0⟩ none none
      (.parsed (singleSlots noneChunk)))).chunks =
      some (List.replicate (16 * HEIGHT * 16) 0) := by
    rw [read_region_single ⟨[], [], []⟩ noneChunk, ingestCells_noneChunk]
    rfl
  exact ⟨h, C8_overwrite_no_merge.1 [] [] [(⟨0, 0⟩, [7])] ⟨0, 0⟩ none none
    (.parsed (singleSlots noneChunk)) ⟨0, 0⟩ (List.replicate (16 * HEIGHT * 16) 0) h⟩

/-! ### Palette invariants along reachable worlds -/

/-- The fresh world satisfies the palette invariant. -/
theorem paletteOK_new : PaletteOK McWorld.new := by
  refine ⟨List.nodup_nil, ?_, ?_⟩
  · intro k n hk
    simp [McWorld.new] at hk
  · intro n i h2
    simp [McWorld.new, slookup] at h2

/-- A slot iteration either keeps the world or ingests one chunk into it. -/
theorem readRegionStep_world (rp : Vec2) (minc maxc : Option Vec2)
    (slots : Nat → Nat → SlotResult) (st : RRState) (xz : Nat × Nat) :
    stWorld (readRegionStep rp minc maxc slots st xz) = stWorld st ∨
      ∃ chunk, stWorld (readRegionStep rp minc maxc slots st xz) =
        { (ingestCells (stWorld st) chunk).1 with
          chunks := (⟨rp.x * 32 + (xz.1 : Int), rp.z * 32 + (xz.2 : Int)⟩,
              (ingestCells (stWorld st) chunk).2) ::
            (ingestCells (stWorld st) chunk).1.chunks } := by
  cases st with
  | fatal m w => exact Or.inl rfl
  | panicked w => exact Or.inl rfl
  | running w =>
    dsimp only [stWorld]
    unfold readRegionStep
    dsimp only
    by_cases h1 : ((isSomeAnd minc fun pos => decide (rp.x * 32 + (xz.1 : Int) < pos.x)) ||
        (isSomeAnd maxc fun pos => decide (rp.x * 32 + (xz.1 : Int) > pos.x))) = true
    · rw [if_pos h1]
      exact Or.inl rfl
    · rw [if_neg h1]
      by_cases h2 : ((isSomeAnd minc fun pos => decide (rp.z * 32 + (xz.2 : Int) < pos.z)) ||
          (isSomeAnd maxc fun pos => decide (rp.z * 32 + (xz.2 : Int) > pos.z))) = true
      · rw [if_pos h2]
        exact Or.inl rfl
      · rw [if_neg h2]
        cases hs : slots xz.1 xz.2 with
        | readErr m => exact Or.inl rfl
        | absentChunk => exact Or.inl rfl
        | badPayload m => exact Or.inl rfl
        | okChunk chunk => exact Or.inr ⟨chunk, rfl⟩

/-- The palette invariant ignores the chunk store. -/
theorem PaletteOK_chunks (w : McWorld) (cs : List (Vec2 × List Nat)) :
    PaletteOK { w with chunks := cs } ↔ PaletteOK w := Iff.rfl

/-- `read_region` preserves the palette invariant. -/
theorem read_region_PaletteOK (w : McWorld) (rp : Vec2) (minc maxc : Option Vec2)
    (reg : RegionParse) (h : PaletteOK w) :
    PaletteOK (resWorld (read_region w rp minc maxc reg)) := by
  cases reg with
  | parseErr msg => exact h
  | parsed slots =>
    unfold read_region
    rw [resWorld_finishRR]
    refine foldl_inv (readRegionStep rp minc maxc slots)
      (fun st => PaletteOK (stWorld st)) slotPairs (.running w) ?_ h
    intro t b hb ht
    rcases readRegionStep_world rp minc maxc slots t b with heq | ⟨chunk, heq⟩
    · rw [heq]
      exact ht
    · rw [heq]
      exact (PaletteOK_chunks (ingestCells (stWorld t) chunk).1 _).mpr
        (ingestCells_PaletteOK (stWorld t) chunk ht)

/-- `read_region` preserves every existing palette binding. -/
theorem read_region_binding (w : McWorld) (rp : Vec2) (minc maxc : Option Vec2)
    (reg : RegionParse) (n : String) (i : Nat)
    (h : slookup n w.palette_index = some i) :
    slookup n (resWorld (read_region w rp minc maxc reg)).palette_index = some i := by
  cases reg with
  | parseErr msg => exact h
  | parsed slots =>
    unfold read_region
    rw [resWorld_finishRR]
    refine foldl_inv (readRegionStep rp minc maxc slots)
      (fun st => slookup n (stWorld st).palette_index = some i) slotPairs (.running w) ?_ h
    intro t b hb ht
    rcases readRegionStep_world rp minc maxc slots t b with heq | ⟨chunk, heq⟩
    · rw [heq]
      exact ht
    · rw [heq]
      have hb2 := ingestCells_binding (stWorld t) chunk n i ht
      generalize ingestCells (stWorld t) chunk = p at hb2 ⊢
      exact hb2

/-- Every world reachable through the public API satisfies the palette
invariant. -/
theorem reachable_PaletteOK (w : McWorld) (h : Reachable w) : PaletteOK w := by
  induction h with
  | new => exact paletteOK_new
  | step w rp minc maxc reg _ ih => exact read_region_PaletteOK w rp minc maxc reg ih

/-- Looking up or creating the same name twice returns the same id. -/
theorem getOrCreate_idem (w : McWorld) (n : String) :
    (getOrCreate (getOrCreate w n).1 n).2 = (getOrCreate w n).2 := by
  cases hs : slookup n w.palette_index with
  | some i =>
    rw [getOrCreate_hit w n i hs]
    rw [getOrCreate_hit w n i hs]
  | none =>
    rw [getOrCreate_fresh w n hs]
    dsimp only
    rw [getOrCreate_hit _ n (w.palette.length % 65536) (by
      show (if n = n then some (w.palette.length % 65536) else
        slookup n w.palette_index) = some (w.palette.length % 65536)
      rw [if_pos rfl])]

/-- The fresh-name family is injective (names have pairwise distinct
lengths). -/
theorem bname_inj (m n : Nat) (h : bname m = bname n) : m = n := by
  have h3 : List.replicate m 'a' = List.replicate n 'a' := congrArg String.data h
  have h4 := congrArg List.length h3
  simpa using h4

/-- Folding the ingestion step of `bigChunk` over fresh indices appends their
names to the palette in order and keeps the palette invariant. -/
theorem bigIngest_fold :
    ∀ (l : List Nat) (w : McWorld) (bd : List Nat),
      PaletteOK w → (∀ i, i ∈ l → bname i ∉ w.palette) → l.Nodup →
      (l.foldl (ingestStep bigChunk) (w, bd)).1.palette = w.palette ++ l.map bname ∧
      PaletteOK (l.foldl (ingestStep bigChunk) (w, bd)).1 := by
  intro l
  induction l with
  | nil =>
    intro w bd hok hfresh hnd
    exact ⟨(List.append_nil _).symm, hok⟩
  | cons i rest ih =>
    intro w bd hok hfresh hnd
    rw [List.foldl_cons]
    have harg : i / (16 * HEIGHT) * (16 * HEIGHT) + i % (16 * HEIGHT) / 16 * 16 +
        i % (16 * HEIGHT) % 16 = i := by
      unfold HEIGHT
      omega
    have hstep : ingestStep bigChunk (w, bd) i =
        ((getOrCreate w (bname i)).1, bd.set i (getOrCreate w (bname i)).2) := by
      unfold ingestStep bigChunk
      dsimp only
      rw [harg]
    have hsl : slookup (bname i) w.palette_index = none := by
      cases hsl2 : slookup (bname i) w.palette_index with
      | none => rfl
      | some j =>
        exact absurd (hok.2.2 (bname i) j hsl2) (hfresh i (List.mem_cons_self i rest))
    have hokw : PaletteOK (getOrCreate w (bname i)).1 := getOrCreate_PaletteOK w (bname i) hok
    have hpal : (getOrCreate w (bname i)).1.palette = w.palette ++ [bname i] := by
      rw [getOrCreate_fresh w (bname i) hsl]
    have hfresh2 : ∀ j, j ∈ rest → bname j ∉ (getOrCreate w (bname i)).1.palette := by
      intro j hj hmem2
      rw [hpal] at hmem2
      rcases List.mem_append.mp hmem2 with hmem3 | hmem3
      · exact hfresh j (List.mem_cons_of_mem i hj) hmem3
      · have hji : j = i := bname_inj j i (List.mem_singleton.mp hmem3)
        rw [hji] at hj
        exact absurd hj (List.nodup_cons.mp hnd).1
    obtain ⟨ihpal, ihok⟩ := ih (getOrCreate w (bname i)).1
      (bd.set i (getOrCreate w (bname i)).2) hokw hfresh2 (List.nodup_cons.mp hnd).2
    rw [hstep]
    refine ⟨?_, ihok⟩
    rw [ihpal, hpal, List.map_cons]
    simp

/-- Replacing the chunk store does not change the palette field. -/
theorem palette_set_chunks (w : McWorld) (cs : List (Vec2 × List Nat)) :
    ({ w with chunks := cs } : McWorld).palette = w.palette := rfl

/-- The palette of the counterexample world lists the fresh names of all
`16 * HEIGHT * 16` cells in order, and satisfies the palette invariant. -/
theorem bigWorld_palette :
    bigWorld.palette = (List.range (16 * HEIGHT * 16)).map bname ∧ PaletteOK bigWorld := by
  have hb : bigWorld = { (ingestCells McWorld.new bigChunk).1 with
      chunks := (⟨0, 0⟩, (ingestCells McWorld.new bigChunk).2) ::
        (ingestCells McWorld.new bigChunk).1.chunks } := by
    unfold bigWorld
    rw [read_region_single McWorld.new bigChunk]
    rfl
  obtain ⟨hpal, hok⟩ := bigIngest_fold (List.range (16 * HEIGHT * 16)) McWorld.new
    (List.replicate (16 * HEIGHT * 16) 0) paletteOK_new
    (fun i _ hmem => absurd hmem (List.not_mem_nil _))
    (List.nodup_range _)
  have hpal2 : (ingestCells McWorld.new bigChunk).1.palette =
      (List.range (16 * HEIGHT * 16)).map bname := by
    unfold ingestCells
    rw [hpal]
    exact List.nil_append _
  have hok2 : PaletteOK (ingestCells McWorld.new bigChunk).1 := by
    unfold ingestCells
    exact hok
  have hfield : bigWorld.palette = (ingestCells McWorld.new bigChunk).1.palette :=
    (congrArg McWorld.palette hb).trans (palette_set_chunks _ _)
  have hiff : PaletteOK bigWorld ↔ PaletteOK (ingestCells McWorld.new bigChunk).1 := by
    rw [hb]
    exact PaletteOK_chunks _ _
  exact ⟨hfield.trans hpal2, hiff.mpr hok2⟩

/-- C2 (counterexample): the world obtained by ingesting one chunk that
introduces `16 * HEIGHT * 16 = 98304` distinct block names is reachable, yet
its name-to-id mapping is not a bijection: the 1st and the 65537th name are
distinct but share id `0`, because ids wrap at `2 ^ 16`. -/
theorem C2_counterexample :
    Reachable bigWorld ∧ bname 0 ≠ bname 65536 ∧
    slookup (bname 0) bigWorld.palette_index = some 0 ∧
    slookup (bname 65536) bigWorld.palette_index = some 0 ∧
    65536 < bigWorld.palette.length := by
  obtain ⟨hpal, hok⟩ := bigWorld_palette
  have hlen : bigWorld.palette.length = 16 * HEIGHT * 16 := by
    rw [hpal, List.length_map, List.length_range]
  refine ⟨?_, ?_, ?_, ?_, ?_⟩
  · exact Reachable.step McWorld.new ⟨0, 0⟩ none none
      (.parsed (singleSlots bigChunk)) Reachable.new
  · intro h
    have h2 := bname_inj 0 65536 h
    omega
  · have hg : bigWorld.palette.get? 0 = some (bname 0) := by
      rw [hpal, List.get?_map, List.get?_range (by norm_num [HEIGHT])]
      rfl
    have h2 := hok.2.1 0 (bname 0) hg
    simpa using h2
  · have hg : bigWorld.palette.get? 65536 = some (bname 65536) := by
      rw [hpal, List.get?_map, List.get?_range (by norm_num [HEIGHT])]
      rfl
    have h2 := hok.2.1 65536 (bname 65536) hg
    simpa using h2
  · rw [hlen]
    norm_num [HEIGHT]

/-- C2 (amended): on every reachable world, repeated lookup-or-create of a
name returns the same id, and — provided at most `2 ^ 16` distinct names have
been seen, the bound forced by the `u16` id truncation — the assigned ids
form the dense range `[0, N)` for `N` the number of distinct names seen, and
the name-to-id mapping is a bijection over all names ever seen; ids are never
removed or renumbered by further `read_region` calls. -/
theorem C2_palette_invariants (w : McWorld) (hw : Reachable w) :
    (∀ n, (getOrCreate (getOrCreate w n).1 n).2 = (getOrCreate w n).2) ∧
    (w.palette.length ≤ 65536 →
      (∀ n i, slookup n w.palette_index = some i → i < w.palette.length) ∧
      (∀ i, i < w.palette.length → ∃ n, slookup n w.palette_index = some i) ∧
      (∀ n1 n2 i, slookup n1 w.palette_index = some i →
        slookup n2 w.palette_index = some i → n1 = n2) ∧
      (∀ n, n ∈ w.palette ↔ ∃ i, slookup n w.palette_index = some i)) ∧
    (∀ (rp : Vec2) (minc maxc : Option Vec2) (reg : RegionParse) (n : String) (i : Nat),
      slookup n w.palette_index = some i →
      slookup n (resWorld (read_region w rp minc maxc reg)).palette_index = some i) := by
  obtain ⟨hnd, hidx, hmem⟩ := reachable_PaletteOK w hw
  refine ⟨fun n => getOrCreate_idem w n, ?_, ?_⟩
  · intro hlen
    have hkey : ∀ n i, slookup n w.palette_index = some i →
        ∃ k, k < w.palette.length ∧ w.palette.get? k = some n ∧ i = k := by
      intro n i hsl
      rcases List.get?_of_mem (hmem n i hsl) with ⟨k, hk⟩
      obtain ⟨hklt, -⟩ := List.get?_eq_some.mp hk
      have h2 := hidx k n hk
      have h3 : i = k % 65536 := Option.some.inj (hsl.symm.trans h2)
      have h4 : k % 65536 = k := Nat.mod_eq_of_lt (by omega)
      exact ⟨k, hklt, hk, by omega⟩
    refine ⟨?_, ?_, ?_, ?_⟩
    · intro n i hsl
      rcases hkey n i hsl with ⟨k, hklt, -, rfl⟩
      exact hklt
    · intro i hi
      have hg : w.palette.get? i = some (w.palette.get ⟨i, hi⟩) := List.get?_eq_get hi
      refine ⟨w.palette.get ⟨i, hi⟩, ?_⟩
      have h2 := hidx i _ hg
      rwa [Nat.mod_eq_of_lt (by omega)] at h2
    · intro n1 n2 i h1 h2
      rcases hkey n1 i h1 with ⟨k1, hk1lt, hk1, hik1⟩
      rcases hkey n2 i h2 with ⟨k2, hk2lt, hk2, hik2⟩
      have hkk : k1 = k2 := by omega
      rw [hkk] at hk1
      exact Option.some.inj (hk1.symm.trans hk2)
    · intro n
      constructor
      · intro hin
        rcases List.get?_of_mem hin with ⟨k, hk⟩
        exact ⟨k % 65536, hidx k n hk⟩
      · intro ⟨i, hsl⟩
        exact hmem n i hsl
  · intro rp minc maxc reg n i hsl
    exact read_region_binding w rp minc maxc reg n i hsl

/-- C2 witness: the fresh world is reachable, within the id bound, and
repeated lookup-or-create of a concrete name returns the same id. -/
theorem C2_witness :
    Reachable McWorld.new ∧ McWorld.new.palette.length ≤ 65536 ∧
    (getOrCreate (getOrCreate McWorld.new "minecraft:stone").1 "minecraft:stone").2 =
      (getOrCreate McWorld.new "minecraft:stone").2 :=
  ⟨Reachable.new, by decide,
    (C2_palette_invariants McWorld.new Reachable.new).1 "minecraft:stone"⟩

/-- Folding `get_or_create` over pairwise-distinct fresh names appends them to
the palette in order and keeps the palette invariant. -/
theorem paletteRun_fold :
    ∀ (names : List String) (w : McWorld),
      PaletteOK w → (∀ n, n ∈ names → n ∉ w.palette) → names.Nodup →
      (names.foldl (fun w2 n => (getOrCreate w2 n).1) w).palette = w.palette ++ names ∧
      PaletteOK (names.foldl (fun w2 n => (getOrCreate w2 n).1) w) := by
  intro names
  induction names with
  | nil =>
    intro w hok hfresh hnd
    exact ⟨(List.append_nil _).symm, hok⟩
  | cons n rest ih =>
    intro w hok hfresh hnd
    rw [List.foldl_cons]
    have hsl : slookup n w.palette_index = none := by
      cases hsl2 : slookup n w.palette_index with
      | none => rfl
      | some j =>
        exact absurd (hok.2.2 n j hsl2) (hfresh n (List.mem_cons_self n rest))
    have hokw : PaletteOK (getOrCreate w n).1 := getOrCreate_PaletteOK w n hok
    have hpal : (getOrCreate w n).1.palette = w.palette ++ [n] := by
      rw [getOrCreate_fresh w n hsl]
    have hfresh2 : ∀ m, m ∈ rest → m ∉ (getOrCreate w n).1.palette := by
      intro m hm hmem2
      rw [hpal] at hmem2
      rcases List.mem_append.mp hmem2 with hmem3 | hmem3
      · exact hfresh m (List.mem_cons_of_mem n hm) hmem3
      · rw [List.mem_singleton.mp hmem3] at hm
        exact absurd hm (List.nodup_cons.mp hnd).1
    obtain ⟨ihpal, ihok⟩ := ih (getOrCreate w n).1 hokw hfresh2 (List.nodup_cons.mp hnd).2
    refine ⟨?_, ihok⟩
    rw [ihpal, hpal]
    simp

/-- C9: palette ids are 16-bit — a fresh name is assigned the palette length
truncated modulo `2 ^ 16 = 65536` — so on any input sequence of 65537
distinct names the 65537th name's id wraps to `0` and collides with the first
name's id, breaking the dense-range/bijection property that holds below the
bound. -/
theorem C9_palette_id_truncation :
    (∀ (w : McWorld) (n : String), slookup n w.palette_index = none →
      (getOrCreate w n).2 = w.palette.length % 65536) ∧
    (∀ (names : List String), names.Nodup → names.length = 65537 →
      ∀ n0 nLast, names.get? 0 = some n0 → names.get? 65536 = some nLast →
        slookup n0 (paletteRun names).palette_index = some 0 ∧
        slookup nLast (paletteRun names).palette_index = some 0 ∧ n0 ≠ nLast) := by
  constructor
  · intro w n hs
    rw [getOrCreate_fresh w n hs]
  · intro names hnd hlen n0 nLast h0 hLast
    obtain ⟨hpal, hok⟩ := paletteRun_fold names McWorld.new paletteOK_new
      (fun n _ hmem => absurd hmem (List.not_mem_nil _)) hnd
    have hpal2 : (paletteRun names).palette = names := by
      unfold paletteRun
      rw [hpal]
      exact List.nil_append _
    have hg0 : (paletteRun names).palette.get? 0 = some n0 := by
      rw [hpal2]
      exact h0
    have hgL : (paletteRun names).palette.get? 65536 = some nLast := by
      rw [hpal2]
      exact hLast
    have hs0 := hok.2.1 0 n0 hg0
    have hsL := hok.2.1 65536 nLast hgL
    refine ⟨by simpa using hs0, by simpa using hsL, ?_⟩
    intro heq
    rw [heq] at h0
    have h00 : (0 : Nat) < names.length := by omega
    have := List.get?_inj h00 hnd (h0.trans hLast.symm)
    omega

/-- C9 witness: a concrete sequence of 65537 pairwise-distinct names, with
every hypothesis discharged explicitly. -/
theorem C9_witness :
    ((List.range 65537).map bname).Nodup ∧ ((List.range 65537).map bname).length = 65537 ∧
    ((List.range 65537).map bname).get? 0 = some (bname 0) ∧
    ((List.range 65537).map bname).get? 65536 = some (bname 65536) ∧
    (slookup (bname 0) (paletteRun ((List.range 65537).map bname)).palette_index = some 0 ∧
      slookup (bname 65536) (paletteRun ((List.range 65537).map bname)).palette_index =
        some 0 ∧ bname 0 ≠ bname 65536) := by
  have hnd : ((List.range 65537).map bname).Nodup :=
    (List.nodup_range 65537).map (fun a b h => bname_inj a b h)
  have hlen : ((List.range 65537).map bname).length = 65537 := by
    rw [List.length_map, List.length_range]
  have h0 : ((List.range 65537).map bname).get? 0 = some (bname 0) := by
    rw [List.get?_map, List.get?_range (by norm_num)]
    rfl
  have hL : ((List.range 65537).map bname).get? 65536 = some (bname 65536) := by
    rw [List.get?_map, List.get?_range (by norm_num)]
    rfl
  exact ⟨hnd, hlen, h0, hL,
    C9_palette_id_truncation.2 ((List.range 65537).map bname) hnd hlen (bname 0) (bname 65536)
      h0 hL⟩

end McWorldSpec
